import Mathlib

/-!
# allrgb: a verification development

Shallow embedding of `allrgb.c` (Bram Stolk, 2019) and proofs about it.

Conventions of the embedding:

* `unsigned int` values are natural numbers below `2 ^ 32`; `unsigned char`
  values are natural numbers below `2 ^ 8`. Where the source stores into such a
  type the embedding reduces modulo the width.
* `int` loop counters and coordinates (`x`, `y`, `i`, `bit`) only ever hold
  non-negative values in the program and are natural numbers here.
* The grid size `SZ` is a parameter `N` of the definitions; the program fixes
  it to `4096`.
* Floating point is not modelled. Where a function only moves float data
  around (`generate_hdr`), the float type and the float-to-integer conversion
  are parameters. `normalize_field` is embedded over the rationals (exact
  arithmetic); `normalize_field_ieee` adds the IEEE 754 results of the
  division by a zero range.
* The output buffer `out` is a byte memory, a function from byte offsets to
  byte values.
* `qsort` is library code. Its result is any list that is a permutation of the
  input and ascending for the comparator.
-/

namespace Allrgb

/-! ## Data model -/

/-- The record `pixel_t`: grid coordinates and three 32-bit channel keys. -/
structure pixel_t where
  x : Nat
  y : Nat
  r : Nat
  g : Nat
  b : Nat
deriving DecidableEq, Repr

/-- The grid size the program is compiled with (`#define SZ 4096`). -/
def SZ : Nat := 4096

/-- The channels of a record are representable as `unsigned int`. -/
def pixel_t.wf (p : pixel_t) : Prop := p.r < 2 ^ 32 ∧ p.g < 2 ^ 32 ∧ p.b < 2 ^ 32

instance (p : pixel_t) : Decidable p.wf := by
  unfold pixel_t.wf; infer_instance

/-! ## `generate_hdr` -/

/-- One iteration of the inner loop of `generate_hdr`. The state is the reader
offset into `img` (in floats) and the records written so far; `writer++` is the
append at the end. `to_u32 v` stands for `(unsigned int)(0xffffffff * v)`; the
reduction modulo `2 ^ 32` is the store into an `unsigned int` field. -/
def hdr_body {F : Type} (to_u32 : F → Nat) (img : Nat → F) (y : Nat)
    (st : Nat × List pixel_t) (x : Nat) : Nat × List pixel_t :=
  (st.1 + 3,
   st.2 ++ [{ x := x, y := y,
              r := to_u32 (img st.1) % 2 ^ 32,
              g := to_u32 (img (st.1 + 1)) % 2 ^ 32,
              b := to_u32 (img (st.1 + 2)) % 2 ^ 32 }])

/-- The function `generate_hdr`: rows `y = 0 .. N-1`, in each row columns
`x = 0 .. N-1`. -/
def generate_hdr {F : Type} (N : Nat) (to_u32 : F → Nat) (img : Nat → F) : List pixel_t :=
  ((List.range N).foldl
    (fun st y => (List.range N).foldl (hdr_body to_u32 img y) st) (0, [])).2

/-! ## `compare_pixels` -/

/-- The loop of `compare_pixels`. The first argument is `bit + 1` for the loop
variable `bit` of the source, so that `0` is the loop exit. -/
def compare_pixels_loop : Nat → pixel_t → pixel_t → Int
  | 0, _, _ => 0
  | bit + 1, p0, p1 =>
    let msk := (1 <<< bit) % 2 ^ 32
    let r0 := p0.r &&& msk
    let r1 := p1.r &&& msk
    let g0 := p0.g &&& msk
    let g1 := p1.g &&& msk
    let b0 := p0.b &&& msk
    let b1 := p1.b &&& msk
    if r0 > r1 then 1
    else if r0 < r1 then -1
    else if g0 > g1 then 1
    else if g0 < g1 then -1
    else if b0 > b1 then 1
    else if b0 < b1 then -1
    else compare_pixels_loop bit p0 p1

/-- The comparator `compare_pixels`: the loop starts at `bit = 31`. -/
def compare_pixels (p0 p1 : pixel_t) : Int := compare_pixels_loop 32 p0 p1

/-! ## `get_colour` -/

/-- The function `get_colour`: the three bytes written to `rgb[0..2]`. -/
def get_colour (i : Nat) : Nat × Nat × Nat :=
  ( ( (((i >>> 23) &&& 1) <<< 7) |||
      (((i >>> 20) &&& 1) <<< 6) |||
      (((i >>> 17) &&& 1) <<< 5) |||
      (((i >>> 14) &&& 1) <<< 4) |||
      (((i >>> 11) &&& 1) <<< 3) |||
      (((i >>>  8) &&& 1) <<< 2) |||
      (((i >>>  5) &&& 1) <<< 1) |||
      (((i >>>  2) &&& 1) <<< 0) ) % 256,
    ( (((i >>> 22) &&& 1) <<< 7) |||
      (((i >>> 19) &&& 1) <<< 6) |||
      (((i >>> 16) &&& 1) <<< 5) |||
      (((i >>> 13) &&& 1) <<< 4) |||
      (((i >>> 10) &&& 1) <<< 3) |||
      (((i >>>  7) &&& 1) <<< 2) |||
      (((i >>>  4) &&& 1) <<< 1) |||
      (((i >>>  1) &&& 1) <<< 0) ) % 256,
    ( (((i >>> 21) &&& 1) <<< 7) |||
      (((i >>> 18) &&& 1) <<< 6) |||
      (((i >>> 15) &&& 1) <<< 5) |||
      (((i >>> 12) &&& 1) <<< 4) |||
      (((i >>>  9) &&& 1) <<< 3) |||
      (((i >>>  6) &&& 1) <<< 2) |||
      (((i >>>  3) &&& 1) <<< 1) |||
      (((i >>>  0) &&& 1) <<< 0) ) % 256 )

/-! ## The write-back loop of `main` -/

/-- Store the three bytes `c` at byte offsets `base`, `base + 1`, `base + 2`. -/
def store_rgb (out : Nat → Nat) (base : Nat) (c : Nat × Nat × Nat) : Nat → Nat :=
  fun a =>
    if a = base then c.1
    else if a = base + 1 then c.2.1
    else if a = base + 2 then c.2.2
    else out a

/-- The record read by `hdr[i]`. -/
def hdr_at (hdr : List pixel_t) (i : Nat) : pixel_t :=
  hdr.getD i { x := 0, y := 0, r := 0, g := 0, b := 0 }

/-- One iteration of the write-back loop of `main`. -/
def write_back_body (N : Nat) (hdr : List pixel_t) (out : Nat → Nat) (i : Nat) : Nat → Nat :=
  let x := (hdr_at hdr i).x
  let y := (hdr_at hdr i).y
  store_rgb out ((y * N + x) * 3) (get_colour i)

/-- The write-back loop of `main`: `for (i = 0; i < SZ*SZ; ++i)`. -/
def write_back (N : Nat) (hdr : List pixel_t) (out : Nat → Nat) : Nat → Nat :=
  (List.range (N * N)).foldl (write_back_body N hdr) out

/-- The byte offset `( y * SZ + x ) * 3` at which iteration `i` of the
write-back loop writes. -/
def write_offset (N : Nat) (hdr : List pixel_t) (i : Nat) : Nat :=
  ((hdr_at hdr i).y * N + (hdr_at hdr i).x) * 3

/-- The colour of the output image at the pixel with linear position
`p = y * N + x`: the three bytes at offset `p * 3`. -/
def pixel_at (out : Nat → Nat) (p : Nat) : Nat × Nat × Nat :=
  (out (p * 3), out (p * 3 + 1), out (p * 3 + 2))

/-- The linear grid position `y * N + x` recorded in a keyed pixel. -/
def pos (N : Nat) (p : pixel_t) : Nat := p.y * N + p.x

/-- The record that `generate_hdr` writes at array index `k`. -/
def key_at {F : Type} (N : Nat) (to_u32 : F → Nat) (img : Nat → F) (k : Nat) : pixel_t :=
  { x := k % N, y := k / N,
    r := to_u32 (img (3 * k)) % 2 ^ 32,
    g := to_u32 (img (3 * k + 1)) % 2 ^ 32,
    b := to_u32 (img (3 * k + 2)) % 2 ^ 32 }

/-! ## `normalize_field` -/

/-- One iteration of the first loop of `normalize_field`: the running bounds
`(lo, hi)` are updated with the element `v`. -/
def bounds_step (st : ℚ × ℚ) (v : ℚ) : ℚ × ℚ :=
  (if v < st.1 then v else st.1, if v > st.2 then v else st.2)

/-- The function `normalize_field` in exact arithmetic. The list holds the
`SZ * SZ` elements of the field in array order; the result is the field after
the in-place update. The bounds start at `lo = 1.0f`, `hi = 0.0f`. This is
the function for a range `hi - lo` that is not zero; the division by a zero
range is in `normalize_field_ieee`. -/
def normalize_field (field : List ℚ) : List ℚ :=
  let st := field.foldl bounds_step (1, 0)
  let lo := st.1
  let hi := st.2
  let rng := hi - lo
  let scl := 1 / rng
  field.map (fun v => (v - lo) * scl)

/-- The value `rng = hi - lo` computed by `normalize_field` after its first
loop. -/
def field_range (field : List ℚ) : ℚ :=
  (field.foldl bounds_step (1, 0)).2 - (field.foldl bounds_step (1, 0)).1

/-- A value of the float computation of `normalize_field`: an exact finite
number, or one of the IEEE 754 results of a division by zero, `+inf`, `-inf`
and `NaN`. -/
inductive fval where
  | finite (q : ℚ)
  | pos_inf
  | neg_inf
  | nan
deriving DecidableEq, Repr

/-- The division `1.0f / rng` of a finite `rng`: exact when `rng` is not zero,
`+inf` when `rng` is zero (`hi - lo` with `hi == lo` is `+0.0`). -/
def one_over (rng : ℚ) : fval :=
  if rng = 0 then fval.pos_inf else fval.finite (1 / rng)

/-- The product `a * scl` of a finite `a` with `scl`: exact for a finite `scl`;
for an infinite `scl`, `NaN` when `a` is zero and the infinity with the sign
of the product otherwise. -/
def times (a : ℚ) : fval → fval
  | fval.finite s => fval.finite (a * s)
  | fval.pos_inf => if a = 0 then fval.nan else if 0 < a then fval.pos_inf else fval.neg_inf
  | fval.neg_inf => if a = 0 then fval.nan else if 0 < a then fval.neg_inf else fval.pos_inf
  | fval.nan => fval.nan

/-- The function `normalize_field` with the division by a zero range carried
out as IEEE 754 does. The two loops are those of `normalize_field`; only the
value of `1.0f / rng` and of the products with it are taken in `fval`. It
agrees with `normalize_field` whenever `hi - lo` is not zero. On a zero range
no float operation of the function rounds (`hi - lo` is `+0.0`, `1.0f / +0.0`
is `+inf`, `v - lo` is `0`), so there it is what the code computes. The source
has no test of `rng` and no `abort`, `exit` or early `return`. -/
def normalize_field_ieee (field : List ℚ) : List fval :=
  let st := field.foldl bounds_step (1, 0)
  let lo := st.1
  let hi := st.2
  let rng := hi - lo
  let scl := one_over rng
  field.map (fun v => times (v - lo) scl)

/-! ## Sample data -/

/-- A sample 2 x 2 image: the float at reader offset `k` is `11 - k`. -/
def sample_img : Nat → Nat := fun k => 11 - k

/-- The keyed pixels of `sample_img`, in ascending order for `compare_pixels`. -/
def sample_sorted : List pixel_t :=
  [ { x := 1, y := 1, r := 2, g := 1, b := 0 },
    { x := 0, y := 1, r := 5, g := 4, b := 3 },
    { x := 1, y := 0, r := 8, g := 7, b := 6 },
    { x := 0, y := 0, r := 11, g := 10, b := 9 } ]

/-! ## Specification-side definitions -/

/-- Re-interleaving of a colour, following the specification: the bits are
taken in the order R7 G7 B7 R6 G6 B6 ... R0 G0 B0, most significant first, and
form a 24-bit integer. -/
def deinterleave (c : Nat × Nat × Nat) : Nat :=
  (((c.1 >>> 7) &&& 1) <<< 23) ||| (((c.2.1 >>> 7) &&& 1) <<< 22) ||| (((c.2.2 >>> 7) &&& 1) <<< 21) |||
  (((c.1 >>> 6) &&& 1) <<< 20) ||| (((c.2.1 >>> 6) &&& 1) <<< 19) ||| (((c.2.2 >>> 6) &&& 1) <<< 18) |||
  (((c.1 >>> 5) &&& 1) <<< 17) ||| (((c.2.1 >>> 5) &&& 1) <<< 16) ||| (((c.2.2 >>> 5) &&& 1) <<< 15) |||
  (((c.1 >>> 4) &&& 1) <<< 14) ||| (((c.2.1 >>> 4) &&& 1) <<< 13) ||| (((c.2.2 >>> 4) &&& 1) <<< 12) |||
  (((c.1 >>> 3) &&& 1) <<< 11) ||| (((c.2.1 >>> 3) &&& 1) <<< 10) ||| (((c.2.2 >>> 3) &&& 1) <<< 9) |||
  (((c.1 >>> 2) &&& 1) <<< 8) ||| (((c.2.1 >>> 2) &&& 1) <<< 7) ||| (((c.2.2 >>> 2) &&& 1) <<< 6) |||
  (((c.1 >>> 1) &&& 1) <<< 5) ||| (((c.2.1 >>> 1) &&& 1) <<< 4) ||| (((c.2.2 >>> 1) &&& 1) <<< 3) |||
  (((c.1 >>> 0) &&& 1) <<< 2) ||| (((c.2.1 >>> 0) &&& 1) <<< 1) ||| (((c.2.2 >>> 0) &&& 1) <<< 0)

/-- A colour is a triple of bytes. -/
def is_colour (c : Nat × Nat × Nat) : Prop := c.1 < 256 ∧ c.2.1 < 256 ∧ c.2.2 < 256

/-- Lexicographic comparison of the channel triples `(r, g, b)` as plain
unsigned integers, following the specification: R first, G when R is equal,
B when R and G are equal. -/
def lex_compare (a b : pixel_t) : Int :=
  if a.r > b.r then 1
  else if a.r < b.r then -1
  else if a.g > b.g then 1
  else if a.g < b.g then -1
  else if a.b > b.b then 1
  else if a.b < b.b then -1
  else 0

/-- Bit `k` of `x`, as `0` or `1`. -/
def bit_of (x k : Nat) : Nat := (x >>> k) &&& 1

/-- The bit plane `k` of a keyed pixel: each channel is replaced by its bit `k`. -/
def bit_plane (p : pixel_t) (k : Nat) : pixel_t :=
  { x := p.x, y := p.y, r := bit_of p.r k, g := bit_of p.g k, b := bit_of p.b k }

/-- Lexicographic comparison over the bit planes `n - 1` down to `0`: the
highest plane on which the two pixels differ decides, and on that plane the
channels are compared by `lex_compare`. -/
def lex_compare_planes : Nat → pixel_t → pixel_t → Int
  | 0, _, _ => 0
  | k + 1, a, b =>
    if lex_compare (bit_plane a k) (bit_plane b k) ≠ 0 then
      lex_compare (bit_plane a k) (bit_plane b k)
    else lex_compare_planes k a b

/-- The octal digit `R_k G_k B_k` of a keyed pixel at bit position `k`. -/
def key_digit (p : pixel_t) (k : Nat) : Nat :=
  4 * bit_of p.r k + 2 * bit_of p.g k + bit_of p.b k

/-- The bit-interleaved key `R_{n-1} G_{n-1} B_{n-1} ... R_0 G_0 B_0` of the low
`n` bits of the three channels, as an unsigned integer. -/
def morton_key : Nat → pixel_t → Nat
  | 0, _ => 0
  | k + 1, p => key_digit p k * 8 ^ k + morton_key k p

/-- Three-way comparison of unsigned integers with the result convention of
`compare_pixels`. -/
def cmp_nat (a b : Nat) : Int := if a > b then 1 else if a < b then -1 else 0

/-- The keyed pixel at `(x, y)` whose channels are the three bytes of a colour. -/
def colour_pixel (x y : Nat) (c : Nat × Nat × Nat) : pixel_t :=
  { x := x, y := y, r := c.1, g := c.2.1, b := c.2.2 }

/-- The bit-interleaved key of the low `n` bits of three channels: bit `k` of
`r` has weight `2^(3k+2)`, bit `k` of `g` weight `2^(3k+1)`, bit `k` of `b`
weight `2^(3k)`. -/
def interleave_bits : Nat → Nat → Nat → Nat → Nat
  | 0, _, _, _ => 0
  | k + 1, r, g, b =>
    bit_of r k * 2 ^ (3 * k + 2) + bit_of g k * 2 ^ (3 * k + 1) + bit_of b k * 2 ^ (3 * k) +
      interleave_bits k r g b

/-- The 96-bit Morton key `R31 G31 B31 R30 G30 B30 ... R0 G0 B0` of three 32-bit
channels, as an unsigned integer. -/
def interleave (r g b : Nat) : Nat := interleave_bits 32 r g b

/-- The two keyed pixels agree on bit position `k` in all three channels. -/
def plane_eq (a b : pixel_t) (k : Nat) : Prop :=
  bit_of a.r k = bit_of b.r k ∧ bit_of a.g k = bit_of b.g k ∧ bit_of a.b k = bit_of b.b k

instance (a b : pixel_t) (k : Nat) : Decidable (plane_eq a b k) := by
  unfold plane_eq; infer_instance

/-! ## Bit-level facts about `get_colour` -/

theorem testBit_one_eq (j : Nat) : Nat.testBit 1 j = decide (j = 0) := by
  have h := @Nat.testBit_two_pow 0 j
  simpa [eq_comm] using h

theorem testBit_of_lt_of_le {x n j : Nat} (hx : x < 2 ^ n) (hj : n ≤ j) :
    x.testBit j = false :=
  Nat.testBit_lt_two_pow (lt_of_lt_of_le hx (Nat.pow_le_pow_right (by decide) hj))

theorem get_colour_r_testBit (i k : Nat) :
    (get_colour i).1.testBit k = (decide (k < 8) && i.testBit (3 * k + 2)) := by
  unfold get_colour
  simp only [show (256 : Nat) = 2 ^ 8 from rfl, Nat.testBit_mod_two_pow, Nat.testBit_or,
    Nat.testBit_shiftLeft, Nat.testBit_and, Nat.testBit_shiftRight]
  by_cases hk : k < 8
  · interval_cases k <;> simp [testBit_one_eq]
  · simp [hk]

theorem get_colour_g_testBit (i k : Nat) :
    (get_colour i).2.1.testBit k = (decide (k < 8) && i.testBit (3 * k + 1)) := by
  unfold get_colour
  simp only [show (256 : Nat) = 2 ^ 8 from rfl, Nat.testBit_mod_two_pow, Nat.testBit_or,
    Nat.testBit_shiftLeft, Nat.testBit_and, Nat.testBit_shiftRight]
  by_cases hk : k < 8
  · interval_cases k <;> simp [testBit_one_eq]
  · simp [hk]

theorem get_colour_b_testBit (i k : Nat) :
    (get_colour i).2.2.testBit k = (decide (k < 8) && i.testBit (3 * k)) := by
  unfold get_colour
  simp only [show (256 : Nat) = 2 ^ 8 from rfl, Nat.testBit_mod_two_pow, Nat.testBit_or,
    Nat.testBit_shiftLeft, Nat.testBit_and, Nat.testBit_shiftRight]
  by_cases hk : k < 8
  · interval_cases k <;> simp [testBit_one_eq]
  · simp [hk]

theorem get_colour_is_colour (i : Nat) : is_colour (get_colour i) := by
  unfold is_colour get_colour
  refine ⟨Nat.mod_lt _ (by decide), Nat.mod_lt _ (by decide), Nat.mod_lt _ (by decide)⟩

theorem deinterleave_testBit (c : Nat × Nat × Nat) (j : Nat) :
    (deinterleave c).testBit j =
      (decide (j < 24) &&
        (if j % 3 = 2 then c.1.testBit (j / 3)
         else if j % 3 = 1 then c.2.1.testBit (j / 3)
         else c.2.2.testBit (j / 3))) := by
  unfold deinterleave
  simp only [Nat.testBit_or, Nat.testBit_shiftLeft, Nat.testBit_and, Nat.testBit_shiftRight]
  by_cases hj : j < 24
  · interval_cases j <;> simp [testBit_one_eq]
  · have h3 : ∀ m, m < 24 → (decide (j ≥ m) && Nat.testBit 1 (j - m)) = false := by
      intro m hm
      have : j - m ≠ 0 := by omega
      simp [testBit_one_eq, this]
    simp [hj, testBit_one_eq]
    omega

theorem deinterleave_lt (c : Nat × Nat × Nat) : deinterleave c < 2 ^ 24 := by
  apply Nat.lt_pow_two_of_testBit
  intro j hj
  rw [deinterleave_testBit]
  have : ¬ j < 24 := by omega
  simp [this]

theorem deinterleave_get_colour (i : Nat) (hi : i < 2 ^ 24) :
    deinterleave (get_colour i) = i := by
  apply Nat.eq_of_testBit_eq
  intro j
  rw [deinterleave_testBit]
  by_cases hj : j < 24
  · have h8 : j / 3 < 8 := by omega
    rcases (by omega : j % 3 = 0 ∨ j % 3 = 1 ∨ j % 3 = 2) with h | h | h
    · have e : 3 * (j / 3) = j := by omega
      simp [hj, h, get_colour_b_testBit, h8, e]
    · have e : 3 * (j / 3) + 1 = j := by omega
      simp [hj, h, get_colour_g_testBit, h8, e]
    · have e : 3 * (j / 3) + 2 = j := by omega
      simp [hj, h, get_colour_r_testBit, h8, e]
  · rw [testBit_of_lt_of_le hi (by omega)]
    simp [hj]

theorem get_colour_deinterleave (c : Nat × Nat × Nat) (hc : is_colour c) :
    get_colour (deinterleave c) = c := by
  obtain ⟨hr, hg, hb⟩ := hc
  have er : (get_colour (deinterleave c)).1 = c.1 := by
    apply Nat.eq_of_testBit_eq
    intro k
    rw [get_colour_r_testBit, deinterleave_testBit]
    by_cases hk : k < 8
    · have h1 : 3 * k + 2 < 24 := by omega
      have h2 : (3 * k + 2) % 3 = 2 := by omega
      have h3 : (3 * k + 2) / 3 = k := by omega
      simp [hk, h1, h2, h3]
    · rw [testBit_of_lt_of_le (n := 8) (j := k) hr (by omega)]
      simp [hk]
  have eg : (get_colour (deinterleave c)).2.1 = c.2.1 := by
    apply Nat.eq_of_testBit_eq
    intro k
    rw [get_colour_g_testBit, deinterleave_testBit]
    by_cases hk : k < 8
    · have h1 : 3 * k + 1 < 24 := by omega
      have h2 : (3 * k + 1) % 3 = 1 := by omega
      have h3 : (3 * k + 1) / 3 = k := by omega
      simp [hk, h1, h2, h3]
    · rw [testBit_of_lt_of_le (n := 8) (j := k) hg (by omega)]
      simp [hk]
  have eb : (get_colour (deinterleave c)).2.2 = c.2.2 := by
    apply Nat.eq_of_testBit_eq
    intro k
    rw [get_colour_b_testBit, deinterleave_testBit]
    by_cases hk : k < 8
    · have h1 : 3 * k < 24 := by omega
      have h2 : (3 * k) % 3 = 0 := by omega
      have h3 : (3 * k) / 3 = k := by omega
      simp [hk, h1, h2, h3]
    · rw [testBit_of_lt_of_le (n := 8) (j := k) hb (by omega)]
      simp [hk]
  exact Prod.ext er (Prod.ext eg eb)

theorem get_colour_injective {i j : Nat} (hi : i < 2 ^ 24) (hj : j < 2 ^ 24)
    (h : get_colour i = get_colour j) : i = j := by
  rw [← deinterleave_get_colour i hi, ← deinterleave_get_colour j hj, h]

/-! ## Facts about `compare_pixels` -/

theorem mask_eq (bit : Nat) (h : bit < 32) : (1 <<< bit) % 2 ^ 32 = 2 ^ bit := by
  rw [Nat.one_shiftLeft]
  exact Nat.mod_eq_of_lt (Nat.pow_lt_pow_right (by decide) h)

theorem bit_of_eq (x k : Nat) : bit_of x k = (x.testBit k).toNat := by
  unfold bit_of
  rw [Nat.toNat_testBit, Nat.and_one_is_mod, Nat.shiftRight_eq_div_pow]

theorem bit_of_le_one (x k : Nat) : bit_of x k ≤ 1 := by
  rw [bit_of_eq]; cases x.testBit k <;> simp

theorem and_mask (x bit : Nat) (h : bit < 32) :
    x &&& ((1 <<< bit) % 2 ^ 32) = bit_of x bit * 2 ^ bit := by
  rw [mask_eq bit h, Nat.and_two_pow, bit_of_eq]

/-- One iteration of the loop of `compare_pixels`, with the masked values
replaced by the bits they carry. -/
theorem compare_pixels_loop_succ (bit : Nat) (h : bit < 32) (p0 p1 : pixel_t) :
    compare_pixels_loop (bit + 1) p0 p1 =
      if bit_of p0.r bit > bit_of p1.r bit then 1
      else if bit_of p0.r bit < bit_of p1.r bit then -1
      else if bit_of p0.g bit > bit_of p1.g bit then 1
      else if bit_of p0.g bit < bit_of p1.g bit then -1
      else if bit_of p0.b bit > bit_of p1.b bit then 1
      else if bit_of p0.b bit < bit_of p1.b bit then -1
      else compare_pixels_loop bit p0 p1 := by
  have hp : 0 < 2 ^ bit := Nat.two_pow_pos bit
  simp only [compare_pixels_loop, and_mask _ bit h, gt_iff_lt, Nat.mul_lt_mul_right hp]

theorem lex_compare_planes_succ (k : Nat) (a b : pixel_t) :
    lex_compare_planes (k + 1) a b =
      if bit_of a.r k > bit_of b.r k then 1
      else if bit_of a.r k < bit_of b.r k then -1
      else if bit_of a.g k > bit_of b.g k then 1
      else if bit_of a.g k < bit_of b.g k then -1
      else if bit_of a.b k > bit_of b.b k then 1
      else if bit_of a.b k < bit_of b.b k then -1
      else lex_compare_planes k a b := by
  simp only [lex_compare_planes, lex_compare, bit_plane]
  split_ifs <;> simp_all

theorem compare_pixels_loop_eq_planes (n : Nat) (hn : n ≤ 32) (a b : pixel_t) :
    compare_pixels_loop n a b = lex_compare_planes n a b := by
  induction n with
  | zero => rfl
  | succ k ih =>
    rw [compare_pixels_loop_succ k (by omega), lex_compare_planes_succ, ih (by omega)]

theorem morton_key_lt (n : Nat) (p : pixel_t) : morton_key n p < 8 ^ n := by
  induction n with
  | zero => simp [morton_key]
  | succ k ih =>
    have hr := bit_of_le_one p.r k
    have hg := bit_of_le_one p.g k
    have hb := bit_of_le_one p.b k
    have hd : key_digit p k ≤ 7 := by unfold key_digit; omega
    have : key_digit p k * 8 ^ k ≤ 7 * 8 ^ k := Nat.mul_le_mul_right _ hd
    simp only [morton_key, pow_succ]
    omega

theorem digit_step (P ka kb ar ag ab br bg bb : Nat) (ha : ka < P) (hb : kb < P)
    (har : ar ≤ 1) (hag : ag ≤ 1) (hab : ab ≤ 1) (hbr : br ≤ 1) (hbg : bg ≤ 1) (hbb : bb ≤ 1) :
    (if ar > br then (1 : Int)
      else if ar < br then -1
      else if ag > bg then 1
      else if ag < bg then -1
      else if ab > bb then 1
      else if ab < bb then -1
      else cmp_nat ka kb) =
    cmp_nat ((4 * ar + 2 * ag + ab) * P + ka) ((4 * br + 2 * bg + bb) * P + kb) := by
  unfold cmp_nat
  interval_cases ar <;> interval_cases ag <;> interval_cases ab <;>
    interval_cases br <;> interval_cases bg <;> interval_cases bb <;>
    simp <;> split_ifs <;> omega

theorem compare_pixels_loop_eq_key (n : Nat) (hn : n ≤ 32) (a b : pixel_t) :
    compare_pixels_loop n a b = cmp_nat (morton_key n a) (morton_key n b) := by
  induction n with
  | zero => simp [compare_pixels_loop, morton_key, cmp_nat]
  | succ k ih =>
    rw [compare_pixels_loop_succ k (by omega), ih (by omega)]
    exact digit_step (8 ^ k) _ _ _ _ _ _ _ _ (morton_key_lt k a) (morton_key_lt k b)
      (bit_of_le_one _ _) (bit_of_le_one _ _) (bit_of_le_one _ _)
      (bit_of_le_one _ _) (bit_of_le_one _ _) (bit_of_le_one _ _)

theorem compare_pixels_eq_key (a b : pixel_t) :
    compare_pixels a b = cmp_nat (morton_key 32 a) (morton_key 32 b) :=
  compare_pixels_loop_eq_key 32 (le_refl _) a b

theorem cmp_nat_antisymm (a b : Nat) : cmp_nat a b = - cmp_nat b a := by
  unfold cmp_nat; split_ifs <;> first | rfl | omega

theorem cmp_nat_neg_iff (a b : Nat) : cmp_nat a b < 0 ↔ a < b := by
  unfold cmp_nat; split_ifs <;> omega

theorem cmp_nat_nonpos_iff (a b : Nat) : cmp_nat a b ≤ 0 ↔ a ≤ b := by
  unfold cmp_nat; split_ifs <;> omega

theorem compare_pixels_loop_coord (n : Nat) (a b a2 b2 : pixel_t)
    (har : a.r = a2.r) (hag : a.g = a2.g) (hab : a.b = a2.b)
    (hbr : b.r = b2.r) (hbg : b.g = b2.g) (hbb : b.b = b2.b) :
    compare_pixels_loop n a b = compare_pixels_loop n a2 b2 := by
  induction n with
  | zero => rfl
  | succ k ih => simp only [compare_pixels_loop, har, hag, hab, hbr, hbg, hbb, ih]

theorem compare_pixels_loop_eq_zero_iff (n : Nat) (hn : n ≤ 32) (a b : pixel_t) :
    compare_pixels_loop n a b = 0 ↔
      ∀ k, k < n → bit_of a.r k = bit_of b.r k ∧ bit_of a.g k = bit_of b.g k ∧
        bit_of a.b k = bit_of b.b k := by
  induction n with
  | zero => simp [compare_pixels_loop]
  | succ k ih =>
    rw [compare_pixels_loop_succ k (by omega), Nat.forall_lt_succ, ← ih (by omega)]
    split_ifs <;> constructor
    all_goals
      intro h
      first
        | contradiction
        | omega

theorem eq_of_bit_of_eq {x y : Nat} (hx : x < 2 ^ 32) (hy : y < 2 ^ 32)
    (h : ∀ k, k < 32 → bit_of x k = bit_of y k) : x = y := by
  apply Nat.eq_of_testBit_eq
  intro k
  by_cases hk : k < 32
  · have := h k hk
    rw [bit_of_eq, bit_of_eq] at this
    revert this
    cases x.testBit k <;> cases y.testBit k <;> simp
  · rw [testBit_of_lt_of_le hx (by omega), testBit_of_lt_of_le hy (by omega)]

/-! ## Facts about the interleaved key -/

theorem two_pow_three_mul (k : Nat) : 2 ^ (3 * k) = 8 ^ k := by
  rw [pow_mul]; norm_num

theorem interleave_bits_eq_morton_key (n : Nat) (p : pixel_t) :
    interleave_bits n p.r p.g p.b = morton_key n p := by
  induction n with
  | zero => rfl
  | succ k ih =>
    simp only [interleave_bits, morton_key, key_digit, ih, pow_succ, two_pow_three_mul]
    ring

theorem interleave_lt (r g b : Nat) : interleave r g b < 2 ^ 96 := by
  have h := morton_key_lt 32 { x := 0, y := 0, r := r, g := g, b := b }
  rw [← interleave_bits_eq_morton_key] at h
  have e : (8 : Nat) ^ 32 = 2 ^ 96 := by norm_num
  rw [e] at h
  exact h

theorem lex_compare_eq_zero_iff (a b : pixel_t) :
    lex_compare a b = 0 ↔ a.r = b.r ∧ a.g = b.g ∧ a.b = b.b := by
  unfold lex_compare
  split_ifs <;> constructor <;> intro h <;> first | contradiction | omega

theorem lex_compare_plane_eq_zero_iff (a b : pixel_t) (k : Nat) :
    lex_compare (bit_plane a k) (bit_plane b k) = 0 ↔ plane_eq a b k := by
  rw [lex_compare_eq_zero_iff]
  rfl

/-- Bit positions on which the pixels agree are skipped by the comparison. -/
theorem lex_compare_planes_skip (a b : pixel_t) (k n : Nat) (hkn : k + 1 ≤ n)
    (h : ∀ j, j < n → k < j → plane_eq a b j) :
    lex_compare_planes n a b = lex_compare_planes (k + 1) a b := by
  induction n, hkn using Nat.le_induction with
  | base => rfl
  | succ m hm ih =>
    have hz := (lex_compare_plane_eq_zero_iff a b m).mpr (h m (by omega) (by omega))
    simp only [lex_compare_planes, hz, ne_eq, not_true_eq_false, if_false]
    exact ih (fun j hj hkj => h j (by omega) hkj)

theorem bit_of_div (x k : Nat) : bit_of x k = x / 2 ^ k % 2 := by
  unfold bit_of
  rw [Nat.and_one_is_mod, Nat.shiftRight_eq_div_pow]

theorem bit_of_get_colour (i k : Nat) :
    bit_of (get_colour i).1 k = (if k < 8 then bit_of i (3 * k + 2) else 0) ∧
    bit_of (get_colour i).2.1 k = (if k < 8 then bit_of i (3 * k + 1) else 0) ∧
    bit_of (get_colour i).2.2 k = (if k < 8 then bit_of i (3 * k) else 0) := by
  simp only [bit_of_eq, get_colour_r_testBit, get_colour_g_testBit, get_colour_b_testBit]
  by_cases hk : k < 8 <;> simp [hk]

theorem key_digit_colour_pixel (x y i k : Nat) :
    key_digit (colour_pixel x y (get_colour i)) k = if k < 8 then i / 8 ^ k % 8 else 0 := by
  obtain ⟨hr, hg, hb⟩ := bit_of_get_colour i k
  unfold key_digit colour_pixel
  simp only [hr, hg, hb]
  by_cases hk : k < 8
  · simp only [if_pos hk, bit_of_div]
    have e0 := two_pow_three_mul k
    have e1 : 2 ^ (3 * k + 1) = 8 ^ k * 2 := by rw [pow_succ, e0]
    have e2 : 2 ^ (3 * k + 2) = 8 ^ k * 4 := by rw [pow_succ, pow_succ, e0]; ring
    rw [e0, e1, e2, ← Nat.div_div_eq_div_mul, ← Nat.div_div_eq_div_mul]
    omega
  · simp only [if_neg hk]

theorem morton_key_colour_pixel_le (x y i n : Nat) (hn : n ≤ 8) :
    morton_key n (colour_pixel x y (get_colour i)) = i % 8 ^ n := by
  induction n with
  | zero => simp [morton_key, Nat.mod_one]
  | succ k ih =>
    have hk : k < 8 := by omega
    simp only [morton_key, key_digit_colour_pixel, hk, if_true, ih (by omega)]
    rw [Nat.mod_pow_succ, Nat.mul_comm, Nat.add_comm]

theorem morton_key_colour_pixel_ge (x y i n : Nat) (hn : 8 ≤ n) :
    morton_key n (colour_pixel x y (get_colour i)) = i % 8 ^ 8 := by
  induction n, hn using Nat.le_induction with
  | base => exact morton_key_colour_pixel_le x y i 8 (le_refl _)
  | succ m hm ih =>
    have hk : ¬ m < 8 := by omega
    simp only [morton_key, key_digit_colour_pixel, hk, if_false, ih]
    omega

/-- The interleaved key of the pixel built from `get_colour i` is the rank `i`. -/
theorem morton_key_get_colour (x y i : Nat) (hi : i < 2 ^ 24) :
    morton_key 32 (colour_pixel x y (get_colour i)) = i := by
  rw [morton_key_colour_pixel_ge x y i 32 (by decide)]
  exact Nat.mod_eq_of_lt (by
    have e : (8 : Nat) ^ 8 = 2 ^ 24 := by norm_num
    rw [e]; exact hi)

/-! ## Facts about `generate_hdr` and the write-back loop -/

theorem hdr_row {F : Type} (N : Nat) (to_u32 : F → Nat) (img : Nat → F) (y j : Nat)
    (hj : j ≤ N) :
    (List.range j).foldl (hdr_body to_u32 img y)
        (3 * (y * N), (List.range (y * N)).map (key_at N to_u32 img)) =
      (3 * (y * N + j), (List.range (y * N + j)).map (key_at N to_u32 img)) := by
  induction j with
  | zero => simp
  | succ j ih =>
    have hlt : j < N := by omega
    rw [List.range_succ, List.foldl_append, ih (by omega)]
    have e1 : (y * N + j) % N = j := by
      rw [Nat.add_comm, Nat.add_mul_mod_self_right]; exact Nat.mod_eq_of_lt hlt
    have e2 : (y * N + j) / N = y := by
      rw [Nat.add_comm, Nat.add_mul_div_right _ _ (by omega), Nat.div_eq_of_lt hlt]; simp
    simp only [List.foldl_cons, List.foldl_nil, hdr_body]
    rw [show y * N + (j + 1) = (y * N + j) + 1 by omega, List.range_succ, List.map_append]
    simp only [List.map_cons, List.map_nil, key_at, e1, e2]
    congr 1

theorem hdr_rows {F : Type} (N : Nat) (to_u32 : F → Nat) (img : Nat → F) (m : Nat) :
    (List.range m).foldl
        (fun st y => (List.range N).foldl (hdr_body to_u32 img y) st) (0, []) =
      (3 * (m * N), (List.range (m * N)).map (key_at N to_u32 img)) := by
  induction m with
  | zero => simp
  | succ m ih =>
    rw [List.range_succ, List.foldl_append, ih]
    simp only [List.foldl_cons, List.foldl_nil]
    rw [hdr_row N to_u32 img m N (le_refl _)]
    rw [show m * N + N = (m + 1) * N by ring]

theorem generate_hdr_eq {F : Type} (N : Nat) (to_u32 : F → Nat) (img : Nat → F) :
    generate_hdr N to_u32 img = (List.range (N * N)).map (key_at N to_u32 img) := by
  unfold generate_hdr
  rw [hdr_rows]

theorem pos_key_at {F : Type} (N : Nat) (to_u32 : F → Nat) (img : Nat → F) (k : Nat) :
    pos N (key_at N to_u32 img k) = k := by
  simp only [pos, key_at]
  exact Nat.div_add_mod' k N

theorem map_pos_generate_hdr {F : Type} (N : Nat) (to_u32 : F → Nat) (img : Nat → F) :
    (generate_hdr N to_u32 img).map (pos N) = List.range (N * N) := by
  rw [generate_hdr_eq, List.map_map]
  have : (pos N ∘ key_at N to_u32 img) = id := by
    funext k; exact pos_key_at N to_u32 img k
  rw [this, List.map_id]

theorem pixel_at_store_same (out : Nat → Nat) (q : Nat) (c : Nat × Nat × Nat) :
    pixel_at (store_rgb out (q * 3) c) q = c := by
  simp [pixel_at, store_rgb]

theorem pixel_at_store_other (out : Nat → Nat) (p q : Nat) (c : Nat × Nat × Nat)
    (h : p ≠ q) : pixel_at (store_rgb out (q * 3) c) p = pixel_at out p := by
  have h0 : p * 3 ≠ q * 3 := by omega
  have h1 : p * 3 ≠ q * 3 + 1 := by omega
  have h2 : p * 3 ≠ q * 3 + 2 := by omega
  have h3 : p * 3 + 1 ≠ q * 3 := by omega
  have h4 : p * 3 + 1 ≠ q * 3 + 2 := by omega
  have h5 : p * 3 + 2 ≠ q * 3 := by omega
  have h6 : p * 3 + 2 ≠ q * 3 + 1 := by omega
  have h7 : p ≠ q := h
  simp [pixel_at, store_rgb, h0, h1, h2, h3, h4, h5, h6, h7]

/-- After the first `m` iterations of the write-back loop, the pixel recorded
in `hdr[i]` holds `get_colour i`, for every `i < m`, when no two of the first
`m` records share a position. -/
theorem write_back_steps (N : Nat) (hdr : List pixel_t) (out : Nat → Nat) (m : Nat)
    (hinj : ∀ i j, i < m → j < m → pos N (hdr_at hdr i) = pos N (hdr_at hdr j) → i = j)
    (i : Nat) (hi : i < m) :
    pixel_at ((List.range m).foldl (write_back_body N hdr) out) (pos N (hdr_at hdr i)) =
      get_colour i := by
  induction m with
  | zero => omega
  | succ m ih =>
    rw [List.range_succ, List.foldl_append]
    simp only [List.foldl_cons, List.foldl_nil, write_back_body]
    by_cases him : i = m
    · subst him
      exact pixel_at_store_same _ _ _
    · have hne : pos N (hdr_at hdr i) ≠ pos N (hdr_at hdr m) := by
        intro h
        exact him (hinj i m hi (by omega) h)
      have := pixel_at_store_other ((List.range m).foldl (write_back_body N hdr) out)
        (pos N (hdr_at hdr i)) (pos N (hdr_at hdr m)) (get_colour m) hne
      unfold pos at this ⊢
      rw [this]
      exact ih (fun a b ha hb h => hinj a b (by omega) (by omega) h) (by omega)

/-- Positions never written keep their old content. -/
theorem write_back_untouched (N : Nat) (hdr : List pixel_t) (out : Nat → Nat) (m p : Nat)
    (hp : ∀ i, i < m → pos N (hdr_at hdr i) ≠ p) :
    pixel_at ((List.range m).foldl (write_back_body N hdr) out) p = pixel_at out p := by
  induction m with
  | zero => simp
  | succ m ih =>
    rw [List.range_succ, List.foldl_append]
    simp only [List.foldl_cons, List.foldl_nil, write_back_body]
    have := pixel_at_store_other ((List.range m).foldl (write_back_body N hdr) out)
        p (pos N (hdr_at hdr m)) (get_colour m) (Ne.symm (hp m (by omega)))
    unfold pos at this
    rw [this]
    exact ih (fun i hi => hp i (by omega))

theorem hdr_at_eq_getElem (hdr : List pixel_t) (i : Nat) (hi : i < hdr.length) :
    hdr_at hdr i = hdr[i] := by
  unfold hdr_at
  simp [List.getD_eq_getElem?_getD, hi]

theorem perm_length {F : Type} (N : Nat) (to_u32 : F → Nat) (img : Nat → F) (hdr : List pixel_t)
    (hperm : hdr.Perm (generate_hdr N to_u32 img)) :
    hdr.length = N * N := by
  rw [hperm.length_eq, generate_hdr_eq]; simp

theorem perm_map_pos {F : Type} (N : Nat) (to_u32 : F → Nat) (img : Nat → F) (hdr : List pixel_t)
    (hperm : hdr.Perm (generate_hdr N to_u32 img)) :
    (hdr.map (pos N)).Perm (List.range (N * N)) := by
  rw [← map_pos_generate_hdr N to_u32 img]
  exact hperm.map _

theorem perm_hdr_at_eq_key_at {F : Type} (N : Nat) (to_u32 : F → Nat) (img : Nat → F) (hdr : List pixel_t)
    (hperm : hdr.Perm (generate_hdr N to_u32 img))
    (i : Nat) (hi : i < N * N) :
    pos N (hdr_at hdr i) < N * N ∧
      hdr_at hdr i = key_at N to_u32 img (pos N (hdr_at hdr i)) := by
  have hlen := perm_length N to_u32 img hdr hperm
  have hmem : hdr_at hdr i ∈ generate_hdr N to_u32 img := by
    rw [hdr_at_eq_getElem hdr i (by omega)]
    exact hperm.subset (List.getElem_mem _)
  rw [generate_hdr_eq, List.mem_map] at hmem
  obtain ⟨k, hk, hke⟩ := hmem
  rw [List.mem_range] at hk
  rw [← hke, pos_key_at]
  exact ⟨hk, rfl⟩

theorem perm_pos_injective {F : Type} (N : Nat) (to_u32 : F → Nat) (img : Nat → F) (hdr : List pixel_t)
    (hperm : hdr.Perm (generate_hdr N to_u32 img))
    (i j : Nat) (hi : i < N * N) (hj : j < N * N)
    (h : pos N (hdr_at hdr i) = pos N (hdr_at hdr j)) : i = j := by
  have hlen := perm_length N to_u32 img hdr hperm
  have hnd : (hdr.map (pos N)).Nodup :=
    (perm_map_pos N to_u32 img hdr hperm).nodup_iff.mpr (List.nodup_range _)
  rw [hdr_at_eq_getElem hdr i (by omega), hdr_at_eq_getElem hdr j (by omega)] at h
  have hi2 : i < (hdr.map (pos N)).length := by simp; omega
  have hj2 : j < (hdr.map (pos N)).length := by simp; omega
  have h2 : (hdr.map (pos N))[i] = (hdr.map (pos N))[j] := by
    simp only [List.getElem_map]; exact h
  exact (List.Nodup.getElem_inj_iff hnd).mp h2

theorem perm_pos_surjective {F : Type} (N : Nat) (to_u32 : F → Nat) (img : Nat → F) (hdr : List pixel_t)
    (hperm : hdr.Perm (generate_hdr N to_u32 img))
    (p : Nat) (hp : p < N * N) :
    ∃ i, i < N * N ∧ pos N (hdr_at hdr i) = p := by
  have hlen := perm_length N to_u32 img hdr hperm
  have hmem : p ∈ hdr.map (pos N) :=
    (perm_map_pos N to_u32 img hdr hperm).mem_iff.mpr (List.mem_range.mpr hp)
  obtain ⟨i, hi, hie⟩ := List.getElem_of_mem hmem
  have hi2 : i < hdr.length := by simpa using hi
  refine ⟨i, by omega, ?_⟩
  rw [hdr_at_eq_getElem hdr i hi2]
  simpa using hie

theorem write_back_at {F : Type} (N : Nat) (to_u32 : F → Nat) (img : Nat → F) (hdr : List pixel_t)
    (hperm : hdr.Perm (generate_hdr N to_u32 img)) (out : Nat → Nat)
    (i : Nat) (hi : i < N * N) :
    pixel_at (write_back N hdr out) (pos N (hdr_at hdr i)) = get_colour i :=
  write_back_steps N hdr out (N * N)
    (fun a b ha hb h => perm_pos_injective N to_u32 img hdr hperm a b ha hb h) i hi

theorem hdr_at_generate_hdr {F : Type} (N : Nat) (to_u32 : F → Nat) (img : Nat → F)
    (k : Nat) (hk : k < N * N) :
    hdr_at (generate_hdr N to_u32 img) k = key_at N to_u32 img k := by
  have hlen : k < (generate_hdr N to_u32 img).length := by
    rw [generate_hdr_eq]; simpa using hk
  rw [hdr_at_eq_getElem _ k hlen]
  simp only [generate_hdr_eq, List.getElem_map, List.getElem_range]

theorem coords_nodup (N : Nat) :
    ((List.range (N * N)).map (fun k => (k % N, k / N))).Nodup := by
  apply List.Nodup.map_on _ (List.nodup_range _)
  intro a _ b _ h
  have h1 : a % N = b % N := congrArg Prod.fst h
  have h2 : a / N = b / N := congrArg Prod.snd h
  rw [← Nat.div_add_mod a N, ← Nat.div_add_mod b N, h1, h2]

theorem coords_mem_iff (N x y : Nat) :
    (x, y) ∈ (List.range (N * N)).map (fun k => (k % N, k / N)) ↔ x < N ∧ y < N := by
  rw [List.mem_map]
  constructor
  · rintro ⟨k, hk, he⟩
    rw [List.mem_range] at hk
    have h1 : k % N = x := congrArg Prod.fst he
    have h2 : k / N = y := congrArg Prod.snd he
    have hN : 0 < N := by
      rcases Nat.eq_zero_or_pos N with h0 | h0
      · subst h0; simp at hk
      · exact h0
    exact ⟨h1 ▸ Nat.mod_lt _ hN, h2 ▸ Nat.div_lt_of_lt_mul hk⟩
  · rintro ⟨hx, hy⟩
    refine ⟨y * N + x, ?_, ?_⟩
    · rw [List.mem_range]
      have : y * N + N ≤ N * N := by
        have := Nat.mul_le_mul_right N (Nat.succ_le_of_lt hy)
        rw [Nat.succ_mul] at this
        exact this
      omega
    · have e1 : (y * N + x) % N = x := by
        rw [Nat.add_comm, Nat.add_mul_mod_self_right]; exact Nat.mod_eq_of_lt hx
      have e2 : (y * N + x) / N = y := by
        rw [Nat.add_comm, Nat.add_mul_div_right _ _ (by omega), Nat.div_eq_of_lt hx]; simp
      simp only [e1, e2]

theorem map_coords_generate_hdr {F : Type} (N : Nat) (to_u32 : F → Nat) (img : Nat → F) :
    (generate_hdr N to_u32 img).map (fun p => (p.x, p.y)) =
      (List.range (N * N)).map (fun k => (k % N, k / N)) := by
  rw [generate_hdr_eq, List.map_map]
  rfl

theorem grid_index (N x y : Nat) (hx : x < N) (hy : y < N) :
    y * N + x < N * N ∧ (y * N + x) % N = x ∧ (y * N + x) / N = y := by
  have h1 : y * N + N ≤ N * N := by
    have := Nat.mul_le_mul_right N (Nat.succ_le_of_lt hy)
    rw [Nat.succ_mul] at this
    exact this
  refine ⟨by omega, ?_, ?_⟩
  · rw [Nat.add_comm, Nat.add_mul_mod_self_right]; exact Nat.mod_eq_of_lt hx
  · rw [Nat.add_comm, Nat.add_mul_div_right _ _ (by omega), Nat.div_eq_of_lt hx]; simp

theorem perm_coords_lt {F : Type} (N : Nat) (to_u32 : F → Nat) (img : Nat → F)
    (hdr : List pixel_t) (hperm : hdr.Perm (generate_hdr N to_u32 img))
    (i : Nat) (hi : i < N * N) :
    (hdr_at hdr i).x < N ∧ (hdr_at hdr i).y < N := by
  obtain ⟨hp, he⟩ := perm_hdr_at_eq_key_at N to_u32 img hdr hperm i hi
  have hN : 0 < N := by
    rcases Nat.eq_zero_or_pos N with h0 | h0
    · subst h0; simp at hi
    · exact h0
  rw [he]
  simp only [key_at]
  exact ⟨Nat.mod_lt _ hN, Nat.div_lt_of_lt_mul hp⟩

/-! ## Facts about `normalize_field` -/

theorem bounds_lo (l : List ℚ) (st : ℚ × ℚ) :
    (l.foldl bounds_step st).1 ≤ st.1 ∧
    (∀ v ∈ l, (l.foldl bounds_step st).1 ≤ v) ∧
    ((l.foldl bounds_step st).1 = st.1 ∨ (l.foldl bounds_step st).1 ∈ l) := by
  induction l generalizing st with
  | nil => simp
  | cons a t ih =>
    obtain ⟨h1, h2, h3⟩ := ih (bounds_step st a)
    have hstep : (bounds_step st a).1 ≤ st.1 ∧ (bounds_step st a).1 ≤ a ∧
        ((bounds_step st a).1 = st.1 ∨ (bounds_step st a).1 = a) := by
      unfold bounds_step
      by_cases h : a < st.1
      · simp only [if_pos h]
        exact ⟨le_of_lt h, le_refl _, Or.inr trivial⟩
      · simp only [if_neg h]
        exact ⟨le_refl _, not_lt.mp h, Or.inl trivial⟩
    obtain ⟨s1, s2, s3⟩ := hstep
    simp only [List.foldl_cons]
    refine ⟨le_trans h1 s1, ?_, ?_⟩
    · intro v hv
      rcases List.mem_cons.mp hv with rfl | hv
      · exact le_trans h1 s2
      · exact h2 v hv
    · rcases h3 with h3 | h3
      · rcases s3 with s3 | s3
        · exact Or.inl (h3.trans s3)
        · exact Or.inr (List.mem_cons.mpr (Or.inl (h3.trans s3)))
      · exact Or.inr (List.mem_cons.mpr (Or.inr h3))

theorem bounds_hi (l : List ℚ) (st : ℚ × ℚ) :
    st.2 ≤ (l.foldl bounds_step st).2 ∧
    (∀ v ∈ l, v ≤ (l.foldl bounds_step st).2) ∧
    ((l.foldl bounds_step st).2 = st.2 ∨ (l.foldl bounds_step st).2 ∈ l) := by
  induction l generalizing st with
  | nil => simp
  | cons a t ih =>
    obtain ⟨h1, h2, h3⟩ := ih (bounds_step st a)
    have hstep : st.2 ≤ (bounds_step st a).2 ∧ a ≤ (bounds_step st a).2 ∧
        ((bounds_step st a).2 = st.2 ∨ (bounds_step st a).2 = a) := by
      unfold bounds_step
      by_cases h : a > st.2
      · simp only [if_pos h]
        exact ⟨le_of_lt h, le_refl _, Or.inr trivial⟩
      · simp only [if_neg h]
        exact ⟨le_refl _, not_lt.mp h, Or.inl trivial⟩
    obtain ⟨s1, s2, s3⟩ := hstep
    simp only [List.foldl_cons]
    refine ⟨le_trans s1 h1, ?_, ?_⟩
    · intro v hv
      rcases List.mem_cons.mp hv with rfl | hv
      · exact le_trans s2 h1
      · exact h2 v hv
    · rcases h3 with h3 | h3
      · rcases s3 with s3 | s3
        · exact Or.inl (h3.trans s3)
        · exact Or.inr (List.mem_cons.mpr (Or.inl (h3.trans s3)))
      · exact Or.inr (List.mem_cons.mpr (Or.inr h3))

/-- The lower bound found by the first loop is the smaller of the seed `1`
and the minimum element. -/
theorem bounds_lo_eq (l : List ℚ) (m : ℚ) (hm : m ∈ l) (hmin : ∀ v ∈ l, m ≤ v) :
    (l.foldl bounds_step (1, 0)).1 = min 1 m := by
  obtain ⟨h1, h2, h3⟩ := bounds_lo l (1, 0)
  have hle := h2 m hm
  simp only at h1 h3
  rcases h3 with h3 | h3
  · rw [h3] at hle ⊢
    exact (min_eq_left hle).symm
  · have := hmin _ h3
    have e : (l.foldl bounds_step (1, 0)).1 = m := le_antisymm hle this
    rw [e] at h1 ⊢
    exact (min_eq_right h1).symm

/-- The upper bound found by the first loop is the larger of the seed `0`
and the maximum element. -/
theorem bounds_hi_eq (l : List ℚ) (M : ℚ) (hM : M ∈ l) (hmax : ∀ v ∈ l, v ≤ M) :
    (l.foldl bounds_step (1, 0)).2 = max 0 M := by
  obtain ⟨h1, h2, h3⟩ := bounds_hi l (1, 0)
  have hle := h2 M hM
  simp only at h1 h3
  rcases h3 with h3 | h3
  · rw [h3] at hle ⊢
    exact (max_eq_left hle).symm
  · have := hmax _ h3
    have e : (l.foldl bounds_step (1, 0)).2 = M := le_antisymm this hle
    rw [e] at h1 ⊢
    exact (max_eq_right h1).symm

theorem normalize_field_eq (l : List ℚ) (m M : ℚ) (hm : m ∈ l) (hmin : ∀ v ∈ l, m ≤ v)
    (hM : M ∈ l) (hmax : ∀ v ∈ l, v ≤ M) :
    normalize_field l = l.map (fun v => (v - min 1 m) / (max 0 M - min 1 m)) := by
  unfold normalize_field
  simp only [bounds_lo_eq l m hm hmin, bounds_hi_eq l M hM hmax]
  apply List.map_congr_left
  intro v _
  rw [mul_one_div]

theorem normalize_field_length (l : List ℚ) : (normalize_field l).length = l.length := by
  unfold normalize_field
  simp

/-- A zero range is found only on a field all of whose elements equal both
running bounds. -/
theorem field_range_zero (l : List ℚ) (h : field_range l = 0) :
    l ≠ [] ∧ ∀ v ∈ l, v = (l.foldl bounds_step (1, 0)).1 := by
  unfold field_range at h
  constructor
  · rintro rfl
    norm_num at h
  · intro v hv
    have h1 := (bounds_lo l (1, 0)).2.1 v hv
    have h2 := (bounds_hi l (1, 0)).2.1 v hv
    have h3 : (l.foldl bounds_step (1, 0)).2 = (l.foldl bounds_step (1, 0)).1 := by linarith
    rw [h3] at h2
    exact le_antisymm h2 h1

theorem normalize_field_ieee_of_ne_zero (l : List ℚ) (h : field_range l ≠ 0) :
    normalize_field_ieee l = (normalize_field l).map fval.finite := by
  unfold field_range at h
  unfold normalize_field_ieee normalize_field one_over
  simp only [if_neg h, List.map_map]
  rfl

theorem normalize_field_ieee_of_zero (l : List ℚ) (h : field_range l = 0) :
    normalize_field_ieee l = List.replicate l.length fval.nan := by
  obtain ⟨_, hall⟩ := field_range_zero l h
  unfold field_range at h
  unfold normalize_field_ieee one_over
  simp only [if_pos h]
  rw [List.eq_replicate_iff]
  refine ⟨by simp, ?_⟩
  intro w hw
  obtain ⟨v, hv, rfl⟩ := List.mem_map.mp hw
  have hz : v - (l.foldl bounds_step (1, 0)).1 = 0 := by rw [← hall v hv, sub_self]
  simp only [times, hz, if_true]

/-! ## Claims about `get_colour` -/

/-- C5: bit layout of `get_colour`. For every rank `i` and every `k` in `0..7`,
bit `k` of the red byte is bit `3k+2` of `i`, bit `k` of the green byte is bit
`3k+1` of `i`, and bit `k` of the blue byte is bit `3k` of `i`. -/
theorem get_colour_bit_layout (i k : Nat) (hk : k < 8) :
    (get_colour i).1.testBit k = i.testBit (3 * k + 2) ∧
    (get_colour i).2.1.testBit k = i.testBit (3 * k + 1) ∧
    (get_colour i).2.2.testBit k = i.testBit (3 * k) := by
  rw [get_colour_r_testBit, get_colour_g_testBit, get_colour_b_testBit]
  simp [hk]

theorem get_colour_bit_layout_witness :
    3 < 8 ∧
    ((get_colour 11259375).1.testBit 3 = Nat.testBit 11259375 (3 * 3 + 2) ∧
     (get_colour 11259375).2.1.testBit 3 = Nat.testBit 11259375 (3 * 3 + 1) ∧
     (get_colour 11259375).2.2.testBit 3 = Nat.testBit 11259375 (3 * 3)) :=
  ⟨by decide, get_colour_bit_layout 11259375 3 (by decide)⟩

/-- C4: round trip. For every rank `i < 2^24`, re-interleaving the three bytes
of `get_colour i` in the order R7 G7 B7 ... R0 G0 B0 gives back `i`. -/
theorem get_colour_round_trip (i : Nat) (hi : i < 2 ^ 24) :
    deinterleave (get_colour i) = i :=
  deinterleave_get_colour i hi

theorem get_colour_round_trip_witness :
    11259375 < 2 ^ 24 ∧ deinterleave (get_colour 11259375) = 11259375 :=
  ⟨by decide, get_colour_round_trip 11259375 (by decide)⟩

/-- C3: `get_colour` is a bijection from the ranks below `2^24` onto the 24-bit
colours: its values are byte triples, distinct ranks give distinct colours, and
every byte triple is the colour of some rank. -/
theorem get_colour_bijective :
    (∀ i, is_colour (get_colour i)) ∧
    (∀ i j, i < 2 ^ 24 → j < 2 ^ 24 → i ≠ j → get_colour i ≠ get_colour j) ∧
    (∀ r g b, r < 256 → g < 256 → b < 256 →
      ∃ i, i < 2 ^ 24 ∧ get_colour i = (r, g, b)) := by
  refine ⟨get_colour_is_colour, ?_, ?_⟩
  · intro i j hi hj hne h
    exact hne (get_colour_injective hi hj h)
  · intro r g b hr hg hb
    exact ⟨deinterleave (r, g, b), deinterleave_lt _,
      get_colour_deinterleave (r, g, b) ⟨hr, hg, hb⟩⟩

theorem get_colour_bijective_witness :
    get_colour 5 ≠ get_colour 9 ∧ ∃ i, i < 2 ^ 24 ∧ get_colour i = (1, 2, 3) :=
  ⟨get_colour_bijective.2.1 5 9 (by decide) (by decide) (by decide),
   get_colour_bijective.2.2 1 2 3 (by decide) (by decide) (by decide)⟩

/-! ## Claims about `compare_pixels` -/

/-- C6, as stated, fails: on the keys `(r, g, b) = (1, 0, 0)` and `(0, 2, 0)`
the comparator answers `-1` while the lexicographic comparison of the triples
answers `1`. -/
theorem compare_pixels_ne_lex_compare :
    compare_pixels { x := 0, y := 0, r := 1, g := 0, b := 0 }
        { x := 1, y := 0, r := 0, g := 2, b := 0 } = -1 ∧
    lex_compare { x := 0, y := 0, r := 1, g := 0, b := 0 }
        { x := 1, y := 0, r := 0, g := 2, b := 0 } = 1 := by
  constructor <;> decide

/-- C6, amended: `compare_pixels a b` is the lexicographic comparison over the
bit planes 31 down to 0. The highest bit position at which the two pixels
differ in some channel decides, and at that position R decides first, G when
the R bits are equal, B when the R and G bits are equal. -/
theorem compare_pixels_eq_lex_compare_planes (a b : pixel_t) :
    compare_pixels a b = lex_compare_planes 32 a b :=
  compare_pixels_loop_eq_planes 32 (le_refl _) a b

/-- C7: `compare_pixels` is a consistent comparator. Swapping the arguments
negates the result, and "less than" is transitive. -/
theorem compare_pixels_antisymm_trans (a b c : pixel_t) :
    compare_pixels a b = - compare_pixels b a ∧
    (compare_pixels a b < 0 → compare_pixels b c < 0 → compare_pixels a c < 0) := by
  simp only [compare_pixels_eq_key]
  refine ⟨cmp_nat_antisymm _ _, ?_⟩
  simp only [cmp_nat_neg_iff]
  intro h1 h2
  exact lt_trans h1 h2

theorem compare_pixels_antisymm_trans_witness :
    compare_pixels { x := 0, y := 0, r := 1, g := 0, b := 0 }
        { x := 1, y := 0, r := 0, g := 2, b := 0 } < 0 ∧
    compare_pixels { x := 1, y := 0, r := 0, g := 2, b := 0 }
        { x := 0, y := 1, r := 4294967295, g := 0, b := 7 } < 0 ∧
    compare_pixels { x := 0, y := 0, r := 1, g := 0, b := 0 }
        { x := 1, y := 0, r := 0, g := 2, b := 0 } =
      - compare_pixels { x := 1, y := 0, r := 0, g := 2, b := 0 }
        { x := 0, y := 0, r := 1, g := 0, b := 0 } ∧
    compare_pixels { x := 0, y := 0, r := 1, g := 0, b := 0 }
        { x := 0, y := 1, r := 4294967295, g := 0, b := 7 } < 0 :=
  ⟨by decide, by decide,
   (compare_pixels_antisymm_trans _ _ { x := 0, y := 1, r := 4294967295, g := 0, b := 7 }).1,
   (compare_pixels_antisymm_trans { x := 0, y := 0, r := 1, g := 0, b := 0 }
      { x := 1, y := 0, r := 0, g := 2, b := 0 }
      { x := 0, y := 1, r := 4294967295, g := 0, b := 7 }).2 (by decide) (by decide)⟩

/-- C8: for records whose channels are `unsigned int` values,
`compare_pixels a b` is `0` exactly when the three channels are equal, and the
coordinates `x`, `y` have no influence on the result. -/
theorem compare_pixels_eq_zero_iff (a b : pixel_t) (ha : a.wf) (hb : b.wf) :
    (compare_pixels a b = 0 ↔ a.r = b.r ∧ a.g = b.g ∧ a.b = b.b) ∧
    (∀ xa ya xb yb,
      compare_pixels { x := xa, y := ya, r := a.r, g := a.g, b := a.b }
          { x := xb, y := yb, r := b.r, g := b.g, b := b.b } =
        compare_pixels a b) := by
  constructor
  · unfold compare_pixels
    rw [compare_pixels_loop_eq_zero_iff 32 (le_refl _)]
    constructor
    · intro h
      exact ⟨eq_of_bit_of_eq ha.1 hb.1 (fun k hk => (h k hk).1),
        eq_of_bit_of_eq ha.2.1 hb.2.1 (fun k hk => (h k hk).2.1),
        eq_of_bit_of_eq ha.2.2 hb.2.2 (fun k hk => (h k hk).2.2)⟩
    · rintro ⟨h1, h2, h3⟩ k _
      rw [h1, h2, h3]
      exact ⟨rfl, rfl, rfl⟩
  · intro xa ya xb yb
    exact compare_pixels_loop_coord 32 _ _ _ _ rfl rfl rfl rfl rfl rfl

theorem compare_pixels_eq_zero_iff_witness :
    pixel_t.wf { x := 3, y := 4, r := 5, g := 4294967295, b := 7 } ∧
    pixel_t.wf { x := 1, y := 2, r := 5, g := 4294967295, b := 7 } ∧
    (compare_pixels { x := 3, y := 4, r := 5, g := 4294967295, b := 7 }
        { x := 1, y := 2, r := 5, g := 4294967295, b := 7 } = 0 ↔
      (5 : Nat) = 5 ∧ (4294967295 : Nat) = 4294967295 ∧ (7 : Nat) = 7) :=
  ⟨by decide, by decide,
   (compare_pixels_eq_zero_iff { x := 3, y := 4, r := 5, g := 4294967295, b := 7 }
      { x := 1, y := 2, r := 5, g := 4294967295, b := 7 } (by decide) (by decide)).1⟩

/-! ## Claims about the pipeline `generate_hdr`, `qsort`, write-back -/

/-- C9: coordinate invariant of the keyed-pixel array. `generate_hdr` fills
`N * N` records and stores `(x, y)` at index `y * N + x`; every coordinate pair
of the grid is in exactly one record; and in every permutation of the array
(the records themselves unchanged) each pair `(x, y)` of the grid occurs exactly
once and no other pair occurs (the list of the records' coordinate pairs has
no duplicate and its members are exactly the pairs of the grid). -/
theorem generate_hdr_coordinates {F : Type} (N : Nat) (to_u32 : F → Nat) (img : Nat → F)
    (hdr : List pixel_t) (hperm : hdr.Perm (generate_hdr N to_u32 img)) :
    (generate_hdr N to_u32 img).length = N * N ∧
    (∀ x y, x < N → y < N →
      (hdr_at (generate_hdr N to_u32 img) (y * N + x)).x = x ∧
      (hdr_at (generate_hdr N to_u32 img) (y * N + x)).y = y) ∧
    (∀ x y, x < N → y < N →
      ∃! k, k < N * N ∧ (hdr_at (generate_hdr N to_u32 img) k).x = x ∧
        (hdr_at (generate_hdr N to_u32 img) k).y = y) ∧
    (hdr.map (fun p => (p.x, p.y))).Nodup ∧
    (∀ x y, (x, y) ∈ hdr.map (fun p => (p.x, p.y)) ↔ x < N ∧ y < N) := by
  have hidx : ∀ x y, x < N → y < N →
      y * N + x < N * N ∧ (y * N + x) % N = x ∧ (y * N + x) / N = y := by
    intro x y hx hy
    have h1 : y * N + N ≤ N * N := by
      have := Nat.mul_le_mul_right N (Nat.succ_le_of_lt hy)
      rw [Nat.succ_mul] at this
      exact this
    refine ⟨by omega, ?_, ?_⟩
    · rw [Nat.add_comm, Nat.add_mul_mod_self_right]; exact Nat.mod_eq_of_lt hx
    · rw [Nat.add_comm, Nat.add_mul_div_right _ _ (by omega), Nat.div_eq_of_lt hx]; simp
  have hpc := hperm.map (fun p => (p.x, p.y))
  rw [map_coords_generate_hdr] at hpc
  refine ⟨?_, ?_, ?_, ?_, ?_⟩
  · rw [generate_hdr_eq]; simp
  · intro x y hx hy
    obtain ⟨h1, h2, h3⟩ := hidx x y hx hy
    rw [hdr_at_generate_hdr N to_u32 img _ h1]
    exact ⟨h2, h3⟩
  · intro x y hx hy
    obtain ⟨h1, h2, h3⟩ := hidx x y hx hy
    refine ⟨y * N + x, ⟨h1, ?_⟩, ?_⟩
    · rw [hdr_at_generate_hdr N to_u32 img _ h1]
      exact ⟨h2, h3⟩
    · rintro k ⟨hk, hkx, hky⟩
      rw [hdr_at_generate_hdr N to_u32 img _ hk] at hkx hky
      simp only [key_at] at hkx hky
      rw [← hkx, ← hky, Nat.mul_comm]
      exact (Nat.div_add_mod k N).symm
  · exact hpc.nodup_iff.mpr (coords_nodup N)
  · intro x y
    rw [hpc.mem_iff]
    exact coords_mem_iff N x y

theorem generate_hdr_coordinates_witness :
    sample_sorted.Perm (generate_hdr 2 (fun v : Nat => v) sample_img) ∧
    ((generate_hdr 2 (fun v : Nat => v) sample_img).length = 2 * 2 ∧
     (∀ x y, x < 2 → y < 2 →
       (hdr_at (generate_hdr 2 (fun v : Nat => v) sample_img) (y * 2 + x)).x = x ∧
       (hdr_at (generate_hdr 2 (fun v : Nat => v) sample_img) (y * 2 + x)).y = y) ∧
     (∀ x y, x < 2 → y < 2 →
       ∃! k, k < 2 * 2 ∧ (hdr_at (generate_hdr 2 (fun v : Nat => v) sample_img) k).x = x ∧
         (hdr_at (generate_hdr 2 (fun v : Nat => v) sample_img) k).y = y) ∧
     (sample_sorted.map (fun p => (p.x, p.y))).Nodup ∧
     (∀ x y, (x, y) ∈ sample_sorted.map (fun p => (p.x, p.y)) ↔ x < 2 ∧ y < 2)) :=
  ⟨by decide,
   generate_hdr_coordinates 2 (fun v : Nat => v) sample_img sample_sorted (by decide)⟩

/-- C1: with `SZ = 4096`, for every input image and every reordering `hdr` of
the array built by `generate_hdr` that is a permutation of it, after the
write-back loop every pixel of `out` holds a 24-bit colour and every 24-bit
colour is at exactly one pixel position: position to colour is a bijection. -/
theorem allrgb_bijection {F : Type} (to_u32 : F → Nat) (img : Nat → F)
    (hdr : List pixel_t) (out : Nat → Nat)
    (hperm : hdr.Perm (generate_hdr SZ to_u32 img)) :
    (∀ p, p < SZ * SZ → is_colour (pixel_at (write_back SZ hdr out) p)) ∧
    (∀ r g b, r < 256 → g < 256 → b < 256 →
      ∃! p, p < SZ * SZ ∧ pixel_at (write_back SZ hdr out) p = (r, g, b)) := by
  have hn : SZ * SZ = 2 ^ 24 := by decide
  constructor
  · intro p hp
    obtain ⟨i, hi, hie⟩ := perm_pos_surjective SZ to_u32 img hdr hperm p hp
    rw [← hie, write_back_at SZ to_u32 img hdr hperm out i hi]
    exact get_colour_is_colour i
  · intro r g b hr hg hb
    have hi : deinterleave (r, g, b) < SZ * SZ := by
      rw [hn]; exact deinterleave_lt _
    refine ⟨pos SZ (hdr_at hdr (deinterleave (r, g, b))), ⟨?_, ?_⟩, ?_⟩
    · exact (perm_hdr_at_eq_key_at SZ to_u32 img hdr hperm _ hi).1
    · rw [write_back_at SZ to_u32 img hdr hperm out _ hi]
      exact get_colour_deinterleave (r, g, b) ⟨hr, hg, hb⟩
    · rintro p ⟨hp, hpc⟩
      obtain ⟨j, hj, hje⟩ := perm_pos_surjective SZ to_u32 img hdr hperm p hp
      rw [← hje, write_back_at SZ to_u32 img hdr hperm out j hj] at hpc
      have hji : j = deinterleave (r, g, b) := by
        rw [← hpc]
        exact (deinterleave_get_colour j (by rw [← hn]; exact hj)).symm
      rw [← hje, hji]

theorem allrgb_bijection_witness :
    ((generate_hdr SZ (fun v : Nat => v) (fun k => 7 * k)).reverse).Perm
        (generate_hdr SZ (fun v : Nat => v) (fun k => 7 * k)) ∧
    ((∀ p, p < SZ * SZ → is_colour (pixel_at
        (write_back SZ (generate_hdr SZ (fun v : Nat => v) (fun k => 7 * k)).reverse
          (fun _ => 0)) p)) ∧
     (∀ r g b, r < 256 → g < 256 → b < 256 →
        ∃! p, p < SZ * SZ ∧ pixel_at
          (write_back SZ (generate_hdr SZ (fun v : Nat => v) (fun k => 7 * k)).reverse
            (fun _ => 0)) p = (r, g, b))) :=
  ⟨List.reverse_perm _,
   allrgb_bijection (fun v : Nat => v) (fun k => 7 * k) _ (fun _ => 0) (List.reverse_perm _)⟩

/-- C2: the final assignment preserves the order of the colour field. For a
grid with `N * N ≤ 2^24`, an array `hdr` that is a permutation of the keyed
pixels and ascending for `compare_pixels`, and two grid positions `p`, `q` whose
keyed pixels compare as `key p < key q`: the keyed pixels of `p` and `q` sit at
sorted indices `i < j`, the colours written at `p` and `q` are `get_colour i`
and `get_colour j`, and the ranks recovered from those colours are `i` and `j`,
so the rank recovered at `p` is strictly smaller than the one recovered at `q`. -/
theorem write_back_preserves_order {F : Type} (N : Nat) (hN : N * N ≤ 2 ^ 24)
    (to_u32 : F → Nat) (img : Nat → F) (hdr : List pixel_t) (out : Nat → Nat)
    (hperm : hdr.Perm (generate_hdr N to_u32 img))
    (hsorted : hdr.Pairwise (fun a b => compare_pixels a b ≤ 0))
    (p q : Nat) (hp : p < N * N) (hq : q < N * N)
    (hlt : compare_pixels (hdr_at (generate_hdr N to_u32 img) p)
      (hdr_at (generate_hdr N to_u32 img) q) < 0) :
    deinterleave (pixel_at (write_back N hdr out) p) <
      deinterleave (pixel_at (write_back N hdr out) q) ∧
    ∃ i j, i < j ∧ j < N * N ∧
      hdr_at hdr i = hdr_at (generate_hdr N to_u32 img) p ∧
      hdr_at hdr j = hdr_at (generate_hdr N to_u32 img) q ∧
      pixel_at (write_back N hdr out) p = get_colour i ∧
      pixel_at (write_back N hdr out) q = get_colour j ∧
      deinterleave (pixel_at (write_back N hdr out) p) = i ∧
      deinterleave (pixel_at (write_back N hdr out) q) = j := by
  have hlen := perm_length N to_u32 img hdr hperm
  obtain ⟨i, hi, hie⟩ := perm_pos_surjective N to_u32 img hdr hperm p hp
  obtain ⟨j, hj, hje⟩ := perm_pos_surjective N to_u32 img hdr hperm q hq
  have hki := (perm_hdr_at_eq_key_at N to_u32 img hdr hperm i hi).2
  have hkj := (perm_hdr_at_eq_key_at N to_u32 img hdr hperm j hj).2
  rw [hie] at hki
  rw [hje] at hkj
  rw [hdr_at_generate_hdr N to_u32 img p hp, hdr_at_generate_hdr N to_u32 img q hq] at hlt ⊢
  have hci := write_back_at N to_u32 img hdr hperm out i hi
  have hcj := write_back_at N to_u32 img hdr hperm out j hj
  rw [hie] at hci
  rw [hje] at hcj
  have hij : i < j := by
    rcases Nat.lt_trichotomy i j with h | h | h
    · exact h
    · exfalso
      subst h
      have hpq : p = q := hie.symm.trans hje
      subst hpq
      rw [compare_pixels_eq_key, cmp_nat_neg_iff] at hlt
      exact lt_irrefl _ hlt
    · exfalso
      have hs := (List.pairwise_iff_getElem.mp hsorted) j i (by omega) (by omega) h
      rw [← hdr_at_eq_getElem hdr j (by omega), ← hdr_at_eq_getElem hdr i (by omega),
        hki, hkj, compare_pixels_eq_key, cmp_nat_nonpos_iff] at hs
      rw [compare_pixels_eq_key, cmp_nat_neg_iff] at hlt
      omega
  have hdi : deinterleave (get_colour i) = i := deinterleave_get_colour i (by omega)
  have hdj : deinterleave (get_colour j) = j := deinterleave_get_colour j (by omega)
  refine ⟨?_, i, j, hij, hj, hki, hkj, hci, hcj, ?_, ?_⟩
  · rw [hci, hcj, hdi, hdj]; exact hij
  · rw [hci, hdi]
  · rw [hcj, hdj]

theorem write_back_preserves_order_witness :
    2 * 2 ≤ 2 ^ 24 ∧
    sample_sorted.Perm (generate_hdr 2 (fun v : Nat => v) sample_img) ∧
    sample_sorted.Pairwise (fun a b => compare_pixels a b ≤ 0) ∧
    3 < 2 * 2 ∧ 0 < 2 * 2 ∧
    compare_pixels (hdr_at (generate_hdr 2 (fun v : Nat => v) sample_img) 3)
      (hdr_at (generate_hdr 2 (fun v : Nat => v) sample_img) 0) < 0 ∧
    (deinterleave (pixel_at (write_back 2 sample_sorted (fun _ => 0)) 3) <
      deinterleave (pixel_at (write_back 2 sample_sorted (fun _ => 0)) 0) ∧
     ∃ i j, i < j ∧ j < 2 * 2 ∧
      hdr_at sample_sorted i = hdr_at (generate_hdr 2 (fun v : Nat => v) sample_img) 3 ∧
      hdr_at sample_sorted j = hdr_at (generate_hdr 2 (fun v : Nat => v) sample_img) 0 ∧
      pixel_at (write_back 2 sample_sorted (fun _ => 0)) 3 = get_colour i ∧
      pixel_at (write_back 2 sample_sorted (fun _ => 0)) 0 = get_colour j ∧
      deinterleave (pixel_at (write_back 2 sample_sorted (fun _ => 0)) 3) = i ∧
      deinterleave (pixel_at (write_back 2 sample_sorted (fun _ => 0)) 0) = j) :=
  ⟨by decide, by decide, by decide, by decide, by decide, by decide,
   write_back_preserves_order 2 (by decide) (fun v : Nat => v) sample_img sample_sorted
     (fun _ => 0) (by decide) (by decide) 3 0 (by decide) (by decide) (by decide)⟩

/-! ## Claims about `normalize_field` -/

/-- C10, as stated, fails: the 2 x 2 field `[2, 3, 5/2, 2]` has minimum `2`
and maximum `3`, but `normalize_field` rescales it to `[1/2, 1, 3/4, 1/2]`, not
to `[0, 1, 1/2, 0]`. -/
theorem normalize_field_not_min_max :
    normalize_field [2, 3, 5 / 2, 2] = [1 / 2, 1, 3 / 4, 1 / 2] ∧
    ([2, 3, 5 / 2, 2] : List ℚ).map (fun v => (v - 2) / (3 - 2)) = [0, 1, 1 / 2, 0] ∧
    normalize_field [2, 3, 5 / 2, 2] ≠
      ([2, 3, 5 / 2, 2] : List ℚ).map (fun v => (v - 2) / (3 - 2)) := by
  have h1 : normalize_field [2, 3, 5 / 2, 2] = [1 / 2, 1, 3 / 4, 1 / 2] := by
    norm_num [normalize_field, bounds_step]
  have h2 : ([2, 3, 5 / 2, 2] : List ℚ).map (fun v => (v - 2) / (3 - 2)) =
      [0, 1, 1 / 2, 0] := by
    norm_num
  refine ⟨h1, h2, ?_⟩
  rw [h1, h2]
  norm_num

/-- C10, amended: in exact arithmetic, for every field whose maximum element
`M` is greater than its minimum element `m`, and which has an element at most
`1` and an element at least `0` (that is, `m ≤ 1` and `0 ≤ M`),
`normalize_field` replaces every element `v` by `(v - m) / (M - m)`. -/
theorem normalize_field_rescales (field : List ℚ) (m M : ℚ)
    (hm : m ∈ field) (hmin : ∀ v ∈ field, m ≤ v)
    (hM : M ∈ field) (hmax : ∀ v ∈ field, v ≤ M)
    (_hlt : m < M) (hm1 : m ≤ 1) (hM0 : 0 ≤ M) :
    normalize_field field = field.map (fun v => (v - m) / (M - m)) := by
  rw [normalize_field_eq field m M hm hmin hM hmax, min_eq_right hm1, max_eq_right hM0]

theorem normalize_field_rescales_witness :
    (1 / 4 : ℚ) ∈ ([1 / 2, 1 / 4, 3 / 4, 1 / 2] : List ℚ) ∧
    (∀ v ∈ ([1 / 2, 1 / 4, 3 / 4, 1 / 2] : List ℚ), 1 / 4 ≤ v) ∧
    (3 / 4 : ℚ) ∈ ([1 / 2, 1 / 4, 3 / 4, 1 / 2] : List ℚ) ∧
    (∀ v ∈ ([1 / 2, 1 / 4, 3 / 4, 1 / 2] : List ℚ), v ≤ 3 / 4) ∧
    (1 / 4 : ℚ) < 3 / 4 ∧ (1 / 4 : ℚ) ≤ 1 ∧ (0 : ℚ) ≤ 3 / 4 ∧
    normalize_field [1 / 2, 1 / 4, 3 / 4, 1 / 2] =
      ([1 / 2, 1 / 4, 3 / 4, 1 / 2] : List ℚ).map (fun v => (v - 1 / 4) / (3 / 4 - 1 / 4)) :=
  ⟨by simp, by norm_num, by simp, by norm_num, by norm_num, by norm_num, by norm_num,
   normalize_field_rescales [1 / 2, 1 / 4, 3 / 4, 1 / 2] (1 / 4) (3 / 4)
     (by simp) (by norm_num) (by simp) (by norm_num) (by norm_num) (by norm_num)
     (by norm_num)⟩

/-- C11, as stated, fails: the 2 x 2 field `[-3, -1, -2, -1]` has minimum `-3`
and maximum `-1`, but after `normalize_field` it is `[0, 2/3, 1/3, 2/3]`, whose
maximum is `2/3`, not `1`. -/
theorem normalize_field_max_not_one :
    normalize_field [-3, -1, -2, -1] = [0, 2 / 3, 1 / 3, 2 / 3] ∧
    (1 : ℚ) ∉ normalize_field [-3, -1, -2, -1] := by
  have h1 : normalize_field [-3, -1, -2, -1] = [0, 2 / 3, 1 / 3, 2 / 3] := by
    norm_num [normalize_field, bounds_step]
  refine ⟨h1, ?_⟩
  rw [h1]
  norm_num

/-- C11, amended: in exact arithmetic, for every field whose maximum element
`M` is greater than its minimum element `m`, and which has an element at most
`1` and an element at least `0` (that is, `m ≤ 1` and `0 ≤ M`), after
`normalize_field` all elements lie in `[0, 1]` and both `0` and `1` occur: the
minimum element is `0` and the maximum element is `1`. -/
theorem normalize_field_range (field : List ℚ) (m M : ℚ)
    (hm : m ∈ field) (hmin : ∀ v ∈ field, m ≤ v)
    (hM : M ∈ field) (hmax : ∀ v ∈ field, v ≤ M)
    (hlt : m < M) (hm1 : m ≤ 1) (hM0 : 0 ≤ M) :
    (0 : ℚ) ∈ normalize_field field ∧ (1 : ℚ) ∈ normalize_field field ∧
    ∀ w ∈ normalize_field field, 0 ≤ w ∧ w ≤ 1 := by
  rw [normalize_field_eq field m M hm hmin hM hmax, min_eq_right hm1, max_eq_right hM0]
  have hpos : 0 < M - m := by linarith
  refine ⟨?_, ?_, ?_⟩
  · exact List.mem_map.mpr ⟨m, hm, by simp⟩
  · exact List.mem_map.mpr ⟨M, hM, div_self (ne_of_gt hpos)⟩
  · intro w hw
    obtain ⟨v, hv, rfl⟩ := List.mem_map.mp hw
    have h1 := hmin v hv
    have h2 := hmax v hv
    constructor
    · exact div_nonneg (by linarith) (le_of_lt hpos)
    · rw [div_le_one hpos]; linarith

theorem normalize_field_range_witness :
    (1 / 4 : ℚ) ∈ ([3 / 4, 1 / 4, 1 / 2, 1 / 4] : List ℚ) ∧
    (∀ v ∈ ([3 / 4, 1 / 4, 1 / 2, 1 / 4] : List ℚ), 1 / 4 ≤ v) ∧
    (3 / 4 : ℚ) ∈ ([3 / 4, 1 / 4, 1 / 2, 1 / 4] : List ℚ) ∧
    (∀ v ∈ ([3 / 4, 1 / 4, 1 / 2, 1 / 4] : List ℚ), v ≤ 3 / 4) ∧
    (1 / 4 : ℚ) < 3 / 4 ∧ (1 / 4 : ℚ) ≤ 1 ∧ (0 : ℚ) ≤ 3 / 4 ∧
    ((0 : ℚ) ∈ normalize_field [3 / 4, 1 / 4, 1 / 2, 1 / 4] ∧
     (1 : ℚ) ∈ normalize_field [3 / 4, 1 / 4, 1 / 2, 1 / 4] ∧
     ∀ w ∈ normalize_field [3 / 4, 1 / 4, 1 / 2, 1 / 4], 0 ≤ w ∧ w ≤ 1) :=
  ⟨by simp, by norm_num, by simp, by norm_num, by norm_num, by norm_num, by norm_num,
   normalize_field_range [3 / 4, 1 / 4, 1 / 2, 1 / 4] (1 / 4) (3 / 4)
     (by simp) (by norm_num) (by simp) (by norm_num) (by norm_num) (by norm_num)
     (by norm_num)⟩

/-- C12: `normalize_field` is idempotent on normalized fields. For every field
whose minimum element is `0` and maximum element is `1`, `normalize_field`
leaves every element unchanged; so whenever `normalize_field g` is such a
field, normalizing it again gives `normalize_field g` back. -/
theorem normalize_field_idempotent (field : List ℚ)
    (h0 : (0 : ℚ) ∈ field) (hmin : ∀ v ∈ field, 0 ≤ v)
    (h1 : (1 : ℚ) ∈ field) (hmax : ∀ v ∈ field, v ≤ 1) :
    normalize_field field = field ∧
    ∀ g, normalize_field g = field →
      normalize_field (normalize_field g) = normalize_field g := by
  have h : normalize_field field = field := by
    rw [normalize_field_eq field 0 1 h0 hmin h1 hmax]
    simp
  refine ⟨h, ?_⟩
  intro g hg
  rw [hg, h]

theorem normalize_field_idempotent_witness :
    (0 : ℚ) ∈ ([1 / 2, 0, 1, 1 / 4] : List ℚ) ∧
    (∀ v ∈ ([1 / 2, 0, 1, 1 / 4] : List ℚ), 0 ≤ v) ∧
    (1 : ℚ) ∈ ([1 / 2, 0, 1, 1 / 4] : List ℚ) ∧
    (∀ v ∈ ([1 / 2, 0, 1, 1 / 4] : List ℚ), v ≤ 1) ∧
    normalize_field [1 / 2, 0, 1, 1 / 4] = [1 / 2, 0, 1, 1 / 4] ∧
    normalize_field [5 / 8, 1 / 2, 3 / 4, 9 / 16] = [1 / 2, 0, 1, 1 / 4] ∧
    normalize_field (normalize_field [5 / 8, 1 / 2, 3 / 4, 9 / 16]) =
      normalize_field [5 / 8, 1 / 2, 3 / 4, 9 / 16] :=
  ⟨by simp, by norm_num, by simp, by norm_num,
   (normalize_field_idempotent [1 / 2, 0, 1, 1 / 4]
     (by simp) (by norm_num) (by simp) (by norm_num)).1,
   by norm_num [normalize_field, bounds_step],
   (normalize_field_idempotent [1 / 2, 0, 1, 1 / 4]
     (by simp) (by norm_num) (by simp) (by norm_num)).2 [5 / 8, 1 / 2, 3 / 4, 9 / 16]
     (by norm_num [normalize_field, bounds_step])⟩

/-- C13, as stated, fails: on the constant 2 x 2 field `[1/2, 1/2, 1/2, 1/2]`
the computed range is zero, the division `1.0f / rng` is carried out and gives
`+inf`, and all four elements are overwritten, with `NaN`. -/
theorem normalize_field_ieee_constant_field :
    field_range [1 / 2, 1 / 2, 1 / 2, 1 / 2] = 0 ∧
    one_over (field_range [1 / 2, 1 / 2, 1 / 2, 1 / 2]) = fval.pos_inf ∧
    normalize_field_ieee [1 / 2, 1 / 2, 1 / 2, 1 / 2] =
      [fval.nan, fval.nan, fval.nan, fval.nan] := by
  have h : field_range [1 / 2, 1 / 2, 1 / 2, 1 / 2] = 0 := by
    norm_num [field_range, bounds_step]
  refine ⟨h, ?_, ?_⟩
  · rw [h]; rfl
  · rw [normalize_field_ieee_of_zero _ h]; rfl

/-- C13, amended: a degenerate field is not guarded. For every field whose
computed range `hi - lo` is zero (such a field is non-empty and all its elements
equal `lo`), `normalize_field` divides `1` by the zero range, which gives
`scl = +inf`, and overwrites every element of the field with
`(v - lo) * scl = 0 * inf = NaN`. -/
theorem normalize_field_ieee_zero_range (field : List ℚ) (h : field_range field = 0) :
    field ≠ [] ∧
    (∀ v ∈ field, v = (field.foldl bounds_step (1, 0)).1) ∧
    one_over (field_range field) = fval.pos_inf ∧
    normalize_field_ieee field = List.replicate field.length fval.nan := by
  obtain ⟨hne, hall⟩ := field_range_zero field h
  refine ⟨hne, hall, ?_, normalize_field_ieee_of_zero field h⟩
  rw [h]; rfl

theorem normalize_field_ieee_zero_range_witness :
    field_range [1 / 4, 1 / 4, 1 / 4, 1 / 4] = 0 ∧
    (([1 / 4, 1 / 4, 1 / 4, 1 / 4] : List ℚ) ≠ [] ∧
     (∀ v ∈ ([1 / 4, 1 / 4, 1 / 4, 1 / 4] : List ℚ),
       v = (([1 / 4, 1 / 4, 1 / 4, 1 / 4] : List ℚ).foldl bounds_step (1, 0)).1) ∧
     one_over (field_range [1 / 4, 1 / 4, 1 / 4, 1 / 4]) = fval.pos_inf ∧
     normalize_field_ieee [1 / 4, 1 / 4, 1 / 4, 1 / 4] =
       List.replicate ([1 / 4, 1 / 4, 1 / 4, 1 / 4] : List ℚ).length fval.nan) :=
  ⟨by norm_num [field_range, bounds_step],
   normalize_field_ieee_zero_range [1 / 4, 1 / 4, 1 / 4, 1 / 4]
     (by norm_num [field_range, bounds_step])⟩

/-- C14: for every grid size `N ≥ 1` and every input image, with `hdr` any
permutation of the keyed pixels: the write-back loop runs once over the ranks
`0 .. N*N-1`, writing `get_colour i` at `write_offset i`; every record has
`x, y < N` and its three write offsets lie inside the `N*N*3`-byte buffer; no
two ranks write to the same `(x, y)`; and every pixel `(x, y)` of the grid is
written by exactly one rank. -/
theorem write_back_writes_once {F : Type} (N : Nat) (_hN : 1 ≤ N)
    (to_u32 : F → Nat) (img : Nat → F) (hdr : List pixel_t)
    (hperm : hdr.Perm (generate_hdr N to_u32 img)) :
    (∀ out, write_back N hdr out =
      (List.range (N * N)).foldl
        (fun o i => store_rgb o (write_offset N hdr i) (get_colour i)) out) ∧
    (List.range (N * N)).Nodup ∧
    (∀ i, i < N * N →
      (hdr_at hdr i).x < N ∧ (hdr_at hdr i).y < N ∧
      write_offset N hdr i + 2 < N * N * 3) ∧
    (∀ i j, i < N * N → j < N * N → i ≠ j →
      ((hdr_at hdr i).x, (hdr_at hdr i).y) ≠ ((hdr_at hdr j).x, (hdr_at hdr j).y)) ∧
    (∀ x y, x < N → y < N →
      ∃! i, i < N * N ∧ (hdr_at hdr i).x = x ∧ (hdr_at hdr i).y = y) := by
  refine ⟨fun _ => rfl, List.nodup_range _, ?_, ?_, ?_⟩
  · intro i hi
    obtain ⟨hx, hy⟩ := perm_coords_lt N to_u32 img hdr hperm i hi
    have hp := (perm_hdr_at_eq_key_at N to_u32 img hdr hperm i hi).1
    refine ⟨hx, hy, ?_⟩
    unfold pos at hp
    unfold write_offset
    omega
  · intro i j hi hj hne h
    apply hne
    apply perm_pos_injective N to_u32 img hdr hperm i j hi hj
    have h1 : (hdr_at hdr i).x = (hdr_at hdr j).x := congrArg Prod.fst h
    have h2 : (hdr_at hdr i).y = (hdr_at hdr j).y := congrArg Prod.snd h
    unfold pos
    rw [h1, h2]
  · intro x y hx hy
    obtain ⟨h1, h2, h3⟩ := grid_index N x y hx hy
    obtain ⟨i, hi, hie⟩ := perm_pos_surjective N to_u32 img hdr hperm (y * N + x) h1
    have hk := (perm_hdr_at_eq_key_at N to_u32 img hdr hperm i hi).2
    rw [hie] at hk
    refine ⟨i, ⟨hi, ?_, ?_⟩, ?_⟩
    · rw [hk]; exact h2
    · rw [hk]; exact h3
    · rintro j ⟨hj, hjx, hjy⟩
      apply perm_pos_injective N to_u32 img hdr hperm j i hj hi
      rw [hie]
      unfold pos
      rw [hjx, hjy]

theorem write_back_writes_once_witness :
    1 ≤ 2 ∧
    sample_sorted.Perm (generate_hdr 2 (fun v : Nat => v) sample_img) ∧
    ((∀ out, write_back 2 sample_sorted out =
      (List.range (2 * 2)).foldl
        (fun o i => store_rgb o (write_offset 2 sample_sorted i) (get_colour i)) out) ∧
     (List.range (2 * 2)).Nodup ∧
     (∀ i, i < 2 * 2 →
       (hdr_at sample_sorted i).x < 2 ∧ (hdr_at sample_sorted i).y < 2 ∧
       write_offset 2 sample_sorted i + 2 < 2 * 2 * 3) ∧
     (∀ i j, i < 2 * 2 → j < 2 * 2 → i ≠ j →
       ((hdr_at sample_sorted i).x, (hdr_at sample_sorted i).y) ≠
         ((hdr_at sample_sorted j).x, (hdr_at sample_sorted j).y)) ∧
     (∀ x y, x < 2 → y < 2 →
       ∃! i, i < 2 * 2 ∧ (hdr_at sample_sorted i).x = x ∧ (hdr_at sample_sorted i).y = y)) :=
  ⟨by decide, by decide,
   write_back_writes_once 2 (by decide) (fun v : Nat => v) sample_img sample_sorted
     (by decide)⟩

/-- C18: for every grid size `N` with `N * N ≤ 2^24` and every input image, the
colours written by the write-back loop are pairwise distinct: two different
pixel positions of the output image never hold the same `(r, g, b)` triple. -/
theorem write_back_colours_distinct {F : Type} (N : Nat) (hN : N * N ≤ 2 ^ 24)
    (to_u32 : F → Nat) (img : Nat → F) (hdr : List pixel_t) (out : Nat → Nat)
    (hperm : hdr.Perm (generate_hdr N to_u32 img))
    (p q : Nat) (hp : p < N * N) (hq : q < N * N) (hpq : p ≠ q) :
    pixel_at (write_back N hdr out) p ≠ pixel_at (write_back N hdr out) q := by
  obtain ⟨i, hi, hie⟩ := perm_pos_surjective N to_u32 img hdr hperm p hp
  obtain ⟨j, hj, hje⟩ := perm_pos_surjective N to_u32 img hdr hperm q hq
  rw [← hie, ← hje, write_back_at N to_u32 img hdr hperm out i hi,
    write_back_at N to_u32 img hdr hperm out j hj]
  intro h
  have hij := get_colour_injective (by omega) (by omega) h
  apply hpq
  rw [← hie, ← hje, hij]

theorem write_back_colours_distinct_witness :
    2 * 2 ≤ 2 ^ 24 ∧
    sample_sorted.Perm (generate_hdr 2 (fun v : Nat => v) sample_img) ∧
    1 < 2 * 2 ∧ 2 < 2 * 2 ∧ 1 ≠ 2 ∧
    pixel_at (write_back 2 sample_sorted (fun _ => 0)) 1 ≠
      pixel_at (write_back 2 sample_sorted (fun _ => 0)) 2 :=
  ⟨by decide, by decide, by decide, by decide, by decide,
   write_back_colours_distinct 2 (by decide) (fun v : Nat => v) sample_img sample_sorted
     (fun _ => 0) (by decide) 1 2 (by decide) (by decide) (by decide)⟩

/-- C15: when the rank range is smaller than `2^24` the unused high bits
contribute zeros. For every `m` and every rank `i < 2^(3m)`, each of the three
bytes of `get_colour i` is below `2^m`; so for `m < 8` the colour space is not
covered, the colour `(255, 255, 255)` being the colour of no such rank. -/
theorem get_colour_small_rank (m i : Nat) (hi : i < 2 ^ (3 * m)) :
    (get_colour i).1 < 2 ^ m ∧ (get_colour i).2.1 < 2 ^ m ∧ (get_colour i).2.2 < 2 ^ m ∧
    (m < 8 → get_colour i ≠ (255, 255, 255)) := by
  have hr : (get_colour i).1 < 2 ^ m := by
    apply Nat.lt_pow_two_of_testBit
    intro k hk
    rw [get_colour_r_testBit, testBit_of_lt_of_le hi (by omega)]
    simp
  have hg : (get_colour i).2.1 < 2 ^ m := by
    apply Nat.lt_pow_two_of_testBit
    intro k hk
    rw [get_colour_g_testBit, testBit_of_lt_of_le hi (by omega)]
    simp
  have hb : (get_colour i).2.2 < 2 ^ m := by
    apply Nat.lt_pow_two_of_testBit
    intro k hk
    rw [get_colour_b_testBit, testBit_of_lt_of_le hi (by omega)]
    simp
  refine ⟨hr, hg, hb, ?_⟩
  intro hm h
  rw [h] at hr
  have h2 : 2 ^ m ≤ 2 ^ 7 := Nat.pow_le_pow_right (by decide) (by omega)
  have h3 : (255, 255, 255).1 = 255 := rfl
  rw [h3] at hr
  omega

theorem get_colour_small_rank_witness :
    200000 < 2 ^ (3 * 6) ∧
    ((get_colour 200000).1 < 2 ^ 6 ∧ (get_colour 200000).2.1 < 2 ^ 6 ∧
     (get_colour 200000).2.2 < 2 ^ 6 ∧
     (6 < 8 → get_colour 200000 ≠ (255, 255, 255))) :=
  ⟨by decide, get_colour_small_rank 6 200000 (by decide)⟩

/-! ## Claims about the interleaved order -/

/-- C16: `compare_pixels` is the unsigned comparison of the 96-bit interleaved
keys `R31 G31 B31 ... R0 G0 B0`: the result is `-1`, `0` or `1` according to
whether `interleave a` is less than, equal to or greater than `interleave b`.
The result is decided at the highest bit position where some channel differs,
with R before G before B within that bit position. -/
theorem compare_pixels_eq_interleave (a b : pixel_t) :
    compare_pixels a b =
      cmp_nat (interleave a.r a.g a.b) (interleave b.r b.g b.b) ∧
    interleave a.r a.g a.b < 2 ^ 96 ∧ interleave b.r b.g b.b < 2 ^ 96 ∧
    (interleave a.r a.g a.b < interleave b.r b.g b.b → compare_pixels a b = -1) ∧
    (interleave a.r a.g a.b = interleave b.r b.g b.b → compare_pixels a b = 0) ∧
    (interleave b.r b.g b.b < interleave a.r a.g a.b → compare_pixels a b = 1) ∧
    (∀ k, k < 32 → (∀ j, j < 32 → k < j → plane_eq a b j) → ¬ plane_eq a b k →
      compare_pixels a b = lex_compare (bit_plane a k) (bit_plane b k)) := by
  have hkey : compare_pixels a b =
      cmp_nat (interleave a.r a.g a.b) (interleave b.r b.g b.b) := by
    unfold interleave
    rw [interleave_bits_eq_morton_key, interleave_bits_eq_morton_key]
    exact compare_pixels_eq_key a b
  refine ⟨hkey, interleave_lt _ _ _, interleave_lt _ _ _, ?_, ?_, ?_, ?_⟩
  · intro h
    rw [hkey]; unfold cmp_nat
    rw [if_neg (by omega), if_pos h]
  · intro h
    rw [hkey]; unfold cmp_nat
    rw [if_neg (by omega), if_neg (by omega)]
  · intro h
    rw [hkey]; unfold cmp_nat
    rw [if_pos h]
  · intro k hk hagree hdiff
    have h1 : compare_pixels a b = lex_compare_planes 32 a b :=
      compare_pixels_loop_eq_planes 32 (le_refl _) a b
    rw [h1, lex_compare_planes_skip a b k 32 (by omega) hagree]
    have hnz : lex_compare (bit_plane a k) (bit_plane b k) ≠ 0 :=
      fun h => hdiff ((lex_compare_plane_eq_zero_iff a b k).mp h)
    simp only [lex_compare_planes, hnz, ne_eq, not_false_eq_true, if_true]

theorem compare_pixels_eq_interleave_witness :
    interleave 1 0 0 < interleave 0 2 0 ∧
    compare_pixels { x := 0, y := 0, r := 1, g := 0, b := 0 }
      { x := 1, y := 0, r := 0, g := 2, b := 0 } = -1 ∧
    (1 < 32 ∧
     (∀ j, j < 32 → 1 < j → plane_eq { x := 0, y := 0, r := 1, g := 0, b := 0 }
        { x := 1, y := 0, r := 0, g := 2, b := 0 } j) ∧
     ¬ plane_eq { x := 0, y := 0, r := 1, g := 0, b := 0 }
        { x := 1, y := 0, r := 0, g := 2, b := 0 } 1 ∧
     compare_pixels { x := 0, y := 0, r := 1, g := 0, b := 0 }
        { x := 1, y := 0, r := 0, g := 2, b := 0 } =
       lex_compare (bit_plane { x := 0, y := 0, r := 1, g := 0, b := 0 } 1)
         (bit_plane { x := 1, y := 0, r := 0, g := 2, b := 0 } 1)) :=
  ⟨by decide,
   (compare_pixels_eq_interleave { x := 0, y := 0, r := 1, g := 0, b := 0 }
      { x := 1, y := 0, r := 0, g := 2, b := 0 }).2.2.2.1 (by decide),
   by decide, by decide, by decide,
   (compare_pixels_eq_interleave { x := 0, y := 0, r := 1, g := 0, b := 0 }
      { x := 1, y := 0, r := 0, g := 2, b := 0 }).2.2.2.2.2.2 1 (by decide) (by decide)
      (by decide)⟩

/-- C17: the rank-to-colour map is strictly increasing for the sort comparator.
For all ranks `i < j < 2^24`, the pixels whose channels are the bytes of
`get_colour i` and of `get_colour j` compare as `-1`, whatever their
coordinates. -/
theorem get_colour_strictly_increasing (i j : Nat) (hij : i < j) (hj : j < 2 ^ 24)
    (xi yi xj yj : Nat) :
    compare_pixels (colour_pixel xi yi (get_colour i))
      (colour_pixel xj yj (get_colour j)) = -1 := by
  rw [compare_pixels_eq_key, morton_key_get_colour xi yi i (by omega),
    morton_key_get_colour xj yj j hj]
  unfold cmp_nat
  rw [if_neg (by omega), if_pos hij]

theorem get_colour_strictly_increasing_witness :
    1193046 < 11259375 ∧ 11259375 < 2 ^ 24 ∧
    compare_pixels (colour_pixel 3 4 (get_colour 1193046))
      (colour_pixel 1 2 (get_colour 11259375)) = -1 :=
  ⟨by decide, by decide,
   get_colour_strictly_increasing 1193046 11259375 (by decide) (by decide) 3 4 1 2⟩

end Allrgb
